import Mathlib

/-!
Verification of the Go engine: board state machine (legality, capture,
ko, undo, scoring) and the minimax search with alpha-beta pruning.

The definitions below are a shallow embedding of the source
(`GoBoard` and `MinimaxAI`): mutation is modelled by explicit state
passing, Python floats by exact rationals, and the DFS flood fill by a
fuel-bounded recursion whose fuel always suffices because the loop stops
as soon as its work stack empties.
-/

set_option maxRecDepth 100000
set_option linter.unusedVariables false

namespace GoVerify

/-- A grid is a list of rows; cell values: 0 = empty, 1 = Black, 2 = White. -/
abbrev Grid := List (List Nat)

/-- Read a cell; out-of-range reads default to 0 (the engine only reads in-range cells). -/
def getCell (g : Grid) (row col : Nat) : Nat :=
  (g.getD row []).getD col 0

/-- Write a cell; `List.set` makes out-of-range writes a no-op. -/
def setCell (g : Grid) (row col v : Nat) : Grid :=
  g.set row ((g.getD row []).set col v)

/-- The source's `get_neighbors`: the in-range 4-neighbours of `(row, col)`, in the
source's direction order `(0,1), (1,0), (0,-1), (-1,0)`. -/
def neighbors (size row col : Nat) : List (Nat × Nat) :=
  ([((row : Int), (col : Int) + 1), ((row : Int) + 1, (col : Int)),
    ((row : Int), (col : Int) - 1), ((row : Int) - 1, (col : Int))] :
      List (Int × Int)).filterMap fun q =>
    if 0 ≤ q.1 ∧ q.1 < (size : Int) ∧ 0 ≤ q.2 ∧ q.2 < (size : Int) then
      some (q.1.toNat, q.2.toNat)
    else none

/-- The DFS loop of `get_group`: pop a cell from the work stack, skip it if
already collected, otherwise collect it and push its same-coloured
neighbours that are not yet collected.  The fuel only bounds the number of
iterations; the loop returns as soon as the stack empties. -/
def get_group_aux (size : Nat) (g : Grid) (color : Nat) :
    Nat → List (Nat × Nat) → List (Nat × Nat) → List (Nat × Nat)
  | 0, _, group => group
  | _ + 1, [], group => group
  | fuel + 1, p :: stack, group =>
    if p ∈ group then
      get_group_aux size g color fuel stack group
    else
      get_group_aux size g color fuel
        (((neighbors size p.1 p.2).filter fun q =>
            getCell g q.1 q.2 == color && !((group ++ [p]).contains q)) ++ stack)
        (group ++ [p])

/-- Each accepted cell pushes at most four neighbours, and the board has at
most `size * size` cells, so this fuel is never exhausted before the work
stack empties. -/
def groupFuel (size : Nat) : Nat := 5 * size * size + 5

/-- The source's `get_group`: the connected group of same-coloured stones through the
stone at `(row, col)`; empty for an empty cell. -/
def get_group (size : Nat) (g : Grid) (row col : Nat) : List (Nat × Nat) :=
  if getCell g row col = 0 then []
  else get_group_aux size g (getCell g row col) (groupFuel size) [(row, col)] []

/-- The source's `count_liberties`: the number of distinct empty cells adjacent to the
group (a Python set; here the deduplicated list of empty neighbours). -/
def count_liberties (size : Nat) (g : Grid) (group : List (Nat × Nat)) : Nat :=
  ((group.flatMap fun p =>
    (neighbors size p.1 p.2).filter fun q => getCell g q.1 q.2 == 0).dedup).length

/-- All board coordinates in row-major order (rows ascending, columns
ascending within a row), as the source's nested `range` loops produce. -/
def allCells (size : Nat) : List (Nat × Nat) :=
  (List.range size).flatMap fun r => (List.range size).map fun c => (r, c)

/-- One step of the `remove_captured_stones` scan over the board.  State:
current grid, `checked` cells, running capture count. -/
def removeStep (size : Nat) (opp : Nat) (st : Grid × List (Nat × Nat) × Nat)
    (p : Nat × Nat) : Grid × List (Nat × Nat) × Nat :=
  if getCell st.1 p.1 p.2 == opp && !(st.2.1.contains p) then
    let group := get_group size st.1 p.1 p.2
    if count_liberties size st.1 group == 0 then
      (group.foldl (fun gg q => setCell gg q.1 q.2 0) st.1,
       st.2.1 ++ group, st.2.2 + group.length)
    else (st.1, st.2.1 ++ group, st.2.2)
  else st

/-- The source's `remove_captured_stones`: scan the whole board in row-major order; each
unchecked opposing group with zero liberties is removed and its size added
to the capture count.  Returns the updated grid and total captured. -/
def remove_captured_stones (size : Nat) (g : Grid) (opp : Nat) : Grid × Nat :=
  let r := (allCells size).foldl (removeStep size opp) (g, [], 0)
  (r.1, r.2.2)

/-- The board state: `GoBoard.__init__`'s fields. -/
structure GoBoard where
  size : Nat
  board : Grid
  previous_board : Option Grid
  current_player : Nat
  captured_black : Nat
  captured_white : Nat
  move_history : List (Nat × Nat × Nat)
  ko_position : Option (Nat × Nat)
deriving DecidableEq

/-- A fresh board: empty grid, Black to move, no history. -/
def GoBoard.init (size : Nat) : GoBoard :=
  { size := size
    board := List.replicate size (List.replicate size 0)
    previous_board := none
    current_player := 1
    captured_black := 0
    captured_white := 0
    move_history := []
    ko_position := none }

/-- The source's `would_be_suicide`: tentatively place the stone, test whether the
resulting group has zero liberties and whether any adjacent opposing group
is left with zero liberties (a capture).  Suicide iff no liberties and no
capture.  (The Python code removes the temporary stone afterwards; here the
placement is a local value, so the board is untouched by construction.) -/
def would_be_suicide (b : GoBoard) (row col color : Nat) : Bool :=
  let g2 := setCell b.board row col color
  let libs := count_liberties b.size g2 (get_group b.size g2 row col)
  let opp := 3 - color
  let would_capture := (neighbors b.size row col).any fun q =>
    getCell g2 q.1 q.2 == opp &&
      count_liberties b.size g2 (get_group b.size g2 q.1 q.2) == 0
  libs == 0 && !would_capture

/-- The source's `is_valid_move`: the cell is empty, is not the ko point, and the
placement is not suicide. -/
def is_valid_move (b : GoBoard) (row col : Nat) : Bool :=
  if getCell b.board row col ≠ 0 then false
  else if b.ko_position = some (row, col) then false
  else if would_be_suicide b row col b.current_player then false
  else true

/-- The ko-point search of `make_move`: for each row, the first cell that
held an opposing stone before the move and is empty after it; the inner
`break` leaves the outer loop running, so a later row's match overwrites an
earlier row's. -/
def findKo (size : Nat) (prev cur : Grid) (opp : Nat) : Option (Nat × Nat) :=
  (List.range size).foldl
    (fun st r =>
      match (List.range size).find? (fun c =>
          getCell prev r c == opp && getCell cur r c == 0) with
      | some c => some (r, c)
      | none => st)
    none

/-- The source's `make_move`: validate; snapshot the grid; place the stone; remove
captured opposing groups, crediting the mover; set the ko point on a
single-stone capture (clearing it otherwise); append to history; flip the
player.  Returns `(false, b)` unchanged on an invalid move. -/
def make_move (b : GoBoard) (row col : Nat) : Bool × GoBoard :=
  if ¬ is_valid_move b row col then (false, b)
  else
    let prev := b.board
    let placed := setCell b.board row col b.current_player
    let opp := 3 - b.current_player
    let rem := remove_captured_stones b.size placed opp
    let captured := rem.2
    (true,
      { b with
        board := rem.1
        previous_board := some prev
        captured_black :=
          if b.current_player = 1 then b.captured_black
          else b.captured_black + captured
        captured_white :=
          if b.current_player = 1 then b.captured_white + captured
          else b.captured_white
        ko_position :=
          if captured = 1 then
            match findKo b.size prev rem.1 opp with
            | some p => some p
            | none => b.ko_position
          else none
        move_history := b.move_history ++ [(row, col, b.current_player)]
        current_player := 3 - b.current_player })

/-- The source's `undo_move`: fails if there is no history or no snapshot; otherwise
restores the snapshot grid, pops the last history entry, flips the player
back, zeroes both capture counters and clears the ko point.  The snapshot
itself is left in place. -/
def undo_move (b : GoBoard) : Bool × GoBoard :=
  if b.move_history.isEmpty || b.previous_board.isNone then (false, b)
  else
    (true,
      { b with
        move_history := b.move_history.dropLast
        board := b.previous_board.getD b.board
        current_player := 3 - b.current_player
        captured_black := 0
        captured_white := 0
        ko_position := none })

/-- The source's `get_score`: stones on the board for each colour, plus stones each side
captured, plus the 2.5 komi for White. -/
def get_score (b : GoBoard) : ℚ × ℚ :=
  let counts := (allCells b.size).foldl
    (fun (s : ℚ × ℚ) p =>
      if getCell b.board p.1 p.2 = 1 then (s.1 + 1, s.2)
      else if getCell b.board p.1 p.2 = 2 then (s.1, s.2 + 1)
      else s)
    (0, 0)
  (counts.1 + (b.captured_white : ℚ), counts.2 + (b.captured_black : ℚ) + 5 / 2)

/-- The source's `get_valid_moves`: every cell passing `is_valid_move`, appended in
row-major scan order. -/
def get_valid_moves (b : GoBoard) : List (Nat × Nat) :=
  (allCells b.size).foldl
    (fun acc p => if is_valid_move b p.1 p.2 then acc ++ [p] else acc) []

/-- The AI configuration: search depth and the player being optimised for. -/
structure MinimaxAI where
  depth : Nat
  player : Nat

/-- The centre-distance bonus `(3.5 - |row - 3|) + (3.5 - |col - 3|)`. -/
def centerBonus (row col : Nat) : ℚ :=
  (7 / 2 - |(row : ℚ) - 3|) + (7 / 2 - |(col : ℚ) - 3|)

/-- The source's `evaluate_board`: stone presence with centre bonus, captures at 15
points each, two points per liberty per member stone, and five points per
occupied corner, each counted for the AI's player and against its
opponent. -/
def evaluate_board (ai : MinimaxAI) (b : GoBoard) : ℚ :=
  let opp := 3 - ai.player
  let s1 := (allCells b.size).foldl
    (fun (s : ℚ) p =>
      if getCell b.board p.1 p.2 = ai.player then s + (10 + centerBonus p.1 p.2)
      else if getCell b.board p.1 p.2 = opp then s - (10 + centerBonus p.1 p.2)
      else s) 0
  let s2 :=
    if ai.player = 1 then
      s1 + (b.captured_white : ℚ) * 15 - (b.captured_black : ℚ) * 15
    else
      s1 + (b.captured_black : ℚ) * 15 - (b.captured_white : ℚ) * 15
  let s3 := (allCells b.size).foldl
    (fun (s : ℚ) p =>
      if getCell b.board p.1 p.2 = ai.player then
        s + (count_liberties b.size b.board (get_group b.size b.board p.1 p.2) : ℚ) * 2
      else if getCell b.board p.1 p.2 = opp then
        s - (count_liberties b.size b.board (get_group b.size b.board p.1 p.2) : ℚ) * 2
      else s) s2
  let corners := [(0, 0), (0, b.size - 1), (b.size - 1, 0), (b.size - 1, b.size - 1)]
  corners.foldl
    (fun (s : ℚ) p =>
      if getCell b.board p.1 p.2 = ai.player then s + 5
      else if getCell b.board p.1 p.2 = opp then s - 5
      else s) s3

/-- Search values: rationals extended with `float('-inf')` and
`float('inf')`. -/
abbrev Score := WithBot (WithTop ℚ)

/-- Embed a finite evaluation into the extended value order. -/
def toScore (q : ℚ) : Score := ((q : WithTop ℚ) : Score)

/-- A candidate move. -/
abbrev Move := Nat × Nat

/-- The maximizing loop of `minimax`: for each move, recurse on the
successor board, keep the running maximum (first move reaching it wins),
raise alpha, and cut off as soon as `beta <= alpha`. -/
def abFoldMax (next : GoBoard → Score → Score → Score × Option Move) (b : GoBoard)
    (bet : Score) : List Move → Score → Score → Option Move → Score × Option Move
  | [], _, m, best => (m, best)
  | mv :: rest, alp, m, best =>
    let v := (next (make_move b mv.1 mv.2).2 alp bet).1
    let m' := if m < v then v else m
    let best' := if m < v then some mv else best
    let alp' := max alp v
    if bet ≤ alp' then (m', best') else abFoldMax next b bet rest alp' m' best'

/-- The minimizing loop of `minimax`: running minimum, lowering beta, with
the symmetric cutoff. -/
def abFoldMin (next : GoBoard → Score → Score → Score × Option Move) (b : GoBoard)
    (alp : Score) : List Move → Score → Score → Option Move → Score × Option Move
  | [], _, m, best => (m, best)
  | mv :: rest, bet, m, best =>
    let v := (next (make_move b mv.1 mv.2).2 alp bet).1
    let m' := if v < m then v else m
    let best' := if v < m then some mv else best
    let bet' := min bet v
    if bet' ≤ alp then (m', best') else abFoldMin next b alp rest bet' m' best'

/-- The source's `MinimaxAI.minimax`: depth-bounded minimax with alpha-beta pruning.
At depth zero or with no legal moves it evaluates the position; otherwise
it runs the pruning fold over the legal moves in row-major order. -/
def minimax (ai : MinimaxAI) : Nat → GoBoard → Score → Score → Bool → Score × Option Move
  | 0, b, _, _, _ => (toScore (evaluate_board ai b), none)
  | d + 1, b, alp, bet, maximizing =>
    let ms := get_valid_moves b
    if ms.isEmpty then (toScore (evaluate_board ai b), none)
    else if maximizing then
      abFoldMax (fun b2 a2 b2' => minimax ai d b2 a2 b2' false) b bet ms alp ⊥ none
    else
      abFoldMin (fun b2 a2 b2' => minimax ai d b2 a2 b2' true) b alp ms bet ⊤ none

/-- The source's `MinimaxAI.get_best_move` runs the search at the configured depth with
the full `(-inf, inf)` window, maximizing at the root. -/
def get_best_move (ai : MinimaxAI) (b : GoBoard) : Option Move :=
  (minimax ai ai.depth b ⊥ ⊤ true).2

/-- Modelled from the spec: the maximizing loop of exhaustive minimax
without pruning, with the same first-move-reaching-the-best-value-wins
tie-breaking (strict improvement updates). -/
def plainFoldMax (next : GoBoard → Score × Option Move) (b : GoBoard) :
    List Move → Score → Option Move → Score × Option Move
  | [], m, best => (m, best)
  | mv :: rest, m, best =>
    let v := (next (make_move b mv.1 mv.2).2).1
    if m < v then plainFoldMax next b rest v (some mv)
    else plainFoldMax next b rest m best

/-- Modelled from the spec: the minimizing loop of exhaustive minimax
without pruning. -/
def plainFoldMin (next : GoBoard → Score × Option Move) (b : GoBoard) :
    List Move → Score → Option Move → Score × Option Move
  | [], m, best => (m, best)
  | mv :: rest, m, best =>
    let v := (next (make_move b mv.1 mv.2).2).1
    if v < m then plainFoldMin next b rest v (some mv)
    else plainFoldMin next b rest m best

/-- Modelled from the spec: exhaustive minimax without pruning over the
same position and depth, visiting the same moves in the same row-major
order with the same tie-breaking, but with no alpha-beta window and no
cutoff. -/
def minimax_plain (ai : MinimaxAI) : Nat → GoBoard → Bool → Score × Option Move
  | 0, b, _ => (toScore (evaluate_board ai b), none)
  | d + 1, b, maximizing =>
    let ms := get_valid_moves b
    if ms.isEmpty then (toScore (evaluate_board ai b), none)
    else if maximizing then
      plainFoldMax (fun b2 => minimax_plain ai d b2 false) b ms ⊥ none
    else
      plainFoldMin (fun b2 => minimax_plain ai d b2 true) b ms ⊤ none

/-! ### Basic facts about `make_move` and `undo_move` -/

theorem make_move_invalid (b : GoBoard) (row col : Nat)
    (h : is_valid_move b row col = false) : make_move b row col = (false, b) := by
  simp [make_move, h]

theorem make_move_fst_iff (b : GoBoard) (row col : Nat) :
    (make_move b row col).1 = true ↔ is_valid_move b row col = true := by
  cases hv : is_valid_move b row col <;> simp [make_move, hv]

theorem make_move_size (b : GoBoard) (row col : Nat) (hv : is_valid_move b row col = true) :
    (make_move b row col).2.size = b.size := by
  simp [make_move, hv]

theorem make_move_board (b : GoBoard) (row col : Nat) (hv : is_valid_move b row col = true) :
    (make_move b row col).2.board =
      (remove_captured_stones b.size (setCell b.board row col b.current_player)
        (3 - b.current_player)).1 := by
  simp [make_move, hv]

theorem make_move_prev (b : GoBoard) (row col : Nat) (hv : is_valid_move b row col = true) :
    (make_move b row col).2.previous_board = some b.board := by
  simp [make_move, hv]

theorem make_move_player (b : GoBoard) (row col : Nat) (hv : is_valid_move b row col = true) :
    (make_move b row col).2.current_player = 3 - b.current_player := by
  simp [make_move, hv]

theorem make_move_history (b : GoBoard) (row col : Nat) (hv : is_valid_move b row col = true) :
    (make_move b row col).2.move_history =
      b.move_history ++ [(row, col, b.current_player)] := by
  simp [make_move, hv]

theorem make_move_capb (b : GoBoard) (row col : Nat) (hv : is_valid_move b row col = true) :
    (make_move b row col).2.captured_black =
      (if b.current_player = 1 then b.captured_black
       else b.captured_black +
        (remove_captured_stones b.size (setCell b.board row col b.current_player)
          (3 - b.current_player)).2) := by
  simp [make_move, hv]

theorem make_move_capw (b : GoBoard) (row col : Nat) (hv : is_valid_move b row col = true) :
    (make_move b row col).2.captured_white =
      (if b.current_player = 1 then b.captured_white +
        (remove_captured_stones b.size (setCell b.board row col b.current_player)
          (3 - b.current_player)).2
       else b.captured_white) := by
  simp [make_move, hv]

theorem make_move_ko (b : GoBoard) (row col : Nat) (hv : is_valid_move b row col = true) :
    (make_move b row col).2.ko_position =
      (if (remove_captured_stones b.size (setCell b.board row col b.current_player)
            (3 - b.current_player)).2 = 1 then
        match findKo b.size b.board
            (remove_captured_stones b.size (setCell b.board row col b.current_player)
              (3 - b.current_player)).1 (3 - b.current_player) with
        | some p => some p
        | none => b.ko_position
      else none) := by
  simp [make_move, hv]

theorem undo_move_guard (b : GoBoard) (h1 : b.move_history ≠ []) (g : Grid)
    (h2 : b.previous_board = some g) :
    undo_move b = (true,
      { b with
        move_history := b.move_history.dropLast
        board := g
        current_player := 3 - b.current_player
        captured_black := 0
        captured_white := 0
        ko_position := none }) := by
  simp [undo_move, h1, h2]

/-- Flipping the player twice is the identity on a real player value. -/
theorem flip_flip (p : Nat) (hp : p = 1 ∨ p = 2) : 3 - (3 - p) = p := by
  rcases hp with h | h <;> subst h <;> rfl

/-- C4: if `isLegalMove` is false then `applyMove` returns false and leaves
every component of the board state unchanged, so an immediate retry with
the same coordinates fails identically. -/
theorem make_move_invalid_unchanged (b : GoBoard) (row col : Nat)
    (h : is_valid_move b row col = false) :
    make_move b row col = (false, b) ∧
      (make_move (make_move b row col).2 row col).1 = false := by
  have h1 := make_move_invalid b row col h
  refine ⟨h1, ?_⟩
  rw [h1]
  simp [make_move, h]

/-- C4 witness: on a board with a stone at (0,0), playing (0,0) is illegal,
the state is unchanged, and the retry fails again. -/
theorem make_move_invalid_unchanged_witness :
    make_move (make_move (GoBoard.init 7) 0 0).2 0 0 =
      (false, (make_move (GoBoard.init 7) 0 0).2) ∧
    (make_move (make_move (make_move (GoBoard.init 7) 0 0).2 0 0).2 0 0).1 = false :=
  make_move_invalid_unchanged (make_move (GoBoard.init 7) 0 0).2 0 0 (by decide)

/-- C3: applying a legal move and then undoing it restores `cells`,
`currentPlayer` and the length of `moveHistory`. -/
theorem apply_undo_roundtrip (b : GoBoard) (row col : Nat)
    (hp : b.current_player = 1 ∨ b.current_player = 2)
    (hv : is_valid_move b row col = true) :
    (make_move b row col).1 = true ∧
    (undo_move (make_move b row col).2).1 = true ∧
    (undo_move (make_move b row col).2).2.board = b.board ∧
    (undo_move (make_move b row col).2).2.current_player = b.current_player ∧
    (undo_move (make_move b row col).2).2.move_history.length =
      b.move_history.length := by
  have hfst : (make_move b row col).1 = true := (make_move_fst_iff b row col).2 hv
  have hne : (make_move b row col).2.move_history ≠ [] := by
    rw [make_move_history b row col hv]; simp
  have hu := undo_move_guard (make_move b row col).2 hne b.board
    (make_move_prev b row col hv)
  refine ⟨hfst, by rw [hu], by rw [hu], ?_, ?_⟩
  · rw [hu]
    show 3 - (make_move b row col).2.current_player = b.current_player
    rw [make_move_player b row col hv, flip_flip b.current_player hp]
  · rw [hu]
    show (make_move b row col).2.move_history.dropLast.length = b.move_history.length
    rw [make_move_history b row col hv, List.dropLast_concat]

/-- C3 witness: the round trip at (0,0) on the fresh board. -/
theorem apply_undo_roundtrip_witness :
    (make_move (GoBoard.init 7) 0 0).1 = true ∧
    (undo_move (make_move (GoBoard.init 7) 0 0).2).1 = true ∧
    (undo_move (make_move (GoBoard.init 7) 0 0).2).2.board = (GoBoard.init 7).board ∧
    (undo_move (make_move (GoBoard.init 7) 0 0).2).2.current_player =
      (GoBoard.init 7).current_player ∧
    (undo_move (make_move (GoBoard.init 7) 0 0).2).2.move_history.length =
      (GoBoard.init 7).move_history.length :=
  apply_undo_roundtrip (GoBoard.init 7) 0 0 (Or.inl rfl) (by decide)

/-- C10: after two successful moves and one undo, a second undo also
succeeds (the history is still non-empty and the snapshot is still in
place), but since `undo` neither clears nor regresses the snapshot, it
leaves the cells at the position after the first move while popping another
history entry and flipping the player again. -/
theorem double_undo_stale_snapshot (b : GoBoard) (r1 c1 r2 c2 : Nat)
    (h1 : (make_move b r1 c1).1 = true)
    (h2 : (make_move (make_move b r1 c1).2 r2 c2).1 = true) :
    (undo_move (make_move (make_move b r1 c1).2 r2 c2).2).1 = true ∧
    (undo_move (make_move (make_move b r1 c1).2 r2 c2).2).2.move_history ≠ [] ∧
    (undo_move (make_move (make_move b r1 c1).2 r2 c2).2).2.previous_board =
      some (make_move b r1 c1).2.board ∧
    (undo_move (undo_move (make_move (make_move b r1 c1).2 r2 c2).2).2).1 = true ∧
    (undo_move (undo_move (make_move (make_move b r1 c1).2 r2 c2).2).2).2.board =
      (make_move b r1 c1).2.board ∧
    (undo_move (undo_move (make_move (make_move b r1 c1).2 r2 c2).2).2).2.move_history =
      b.move_history ∧
    (undo_move (undo_move (make_move (make_move b r1 c1).2 r2 c2).2).2).2.current_player =
      3 - (undo_move (make_move (make_move b r1 c1).2 r2 c2).2).2.current_player := by
  have hv1 : is_valid_move b r1 c1 = true := (make_move_fst_iff b r1 c1).1 h1
  set b1 := (make_move b r1 c1).2 with hb1
  have hv2 : is_valid_move b1 r2 c2 = true := (make_move_fst_iff b1 r2 c2).1 h2
  set b2 := (make_move b1 r2 c2).2 with hb2
  have hh1 : b1.move_history = b.move_history ++ [(r1, c1, b.current_player)] :=
    make_move_history b r1 c1 hv1
  have hh2 : b2.move_history = b1.move_history ++ [(r2, c2, b1.current_player)] :=
    make_move_history b1 r2 c2 hv2
  have hne2 : b2.move_history ≠ [] := by rw [hh2]; simp
  have hu1 := undo_move_guard b2 hne2 b1.board (make_move_prev b1 r2 c2 hv2)
  set b3 := (undo_move b2).2 with hb3
  have hb3e : b3 = { b2 with
      move_history := b2.move_history.dropLast
      board := b1.board
      current_player := 3 - b2.current_player
      captured_black := 0
      captured_white := 0
      ko_position := none } := by rw [hb3, hu1]
  have hh3 : b3.move_history = b1.move_history := by
    rw [hb3e]
    show b2.move_history.dropLast = b1.move_history
    rw [hh2, List.dropLast_concat]
  have hne3 : b3.move_history ≠ [] := by rw [hh3, hh1]; simp
  have hprev3 : b3.previous_board = some b1.board := by
    rw [hb3e]
    show b2.previous_board = some b1.board
    exact make_move_prev b1 r2 c2 hv2
  have hu2 := undo_move_guard b3 hne3 b1.board hprev3
  refine ⟨by rw [hu1], hne3, hprev3, by rw [hu2], by rw [hu2], ?_, by rw [hu2]⟩
  rw [hu2]
  show b3.move_history.dropLast = b.move_history
  rw [hh3, hh1, List.dropLast_concat]

/-- C10 witness: moves at (0,0) and (1,1) from the fresh board, then two
undos. -/
theorem double_undo_stale_snapshot_witness :
    (undo_move (make_move (make_move (GoBoard.init 7) 0 0).2 1 1).2).1 = true ∧
    (undo_move (make_move (make_move (GoBoard.init 7) 0 0).2 1 1).2).2.move_history ≠ [] ∧
    (undo_move (make_move (make_move (GoBoard.init 7) 0 0).2 1 1).2).2.previous_board =
      some (make_move (GoBoard.init 7) 0 0).2.board ∧
    (undo_move (undo_move (make_move (make_move (GoBoard.init 7) 0 0).2 1 1).2).2).1 = true ∧
    (undo_move (undo_move (make_move (make_move (GoBoard.init 7) 0 0).2 1 1).2).2).2.board =
      (make_move (GoBoard.init 7) 0 0).2.board ∧
    (undo_move (undo_move (make_move (make_move (GoBoard.init 7) 0 0).2 1 1).2).2).2.move_history =
      (GoBoard.init 7).move_history ∧
    (undo_move (undo_move (make_move (make_move (GoBoard.init 7) 0 0).2 1 1).2).2).2.current_player =
      3 - (undo_move (make_move (make_move (GoBoard.init 7) 0 0).2 1 1).2).2.current_player :=
  double_undo_stale_snapshot (GoBoard.init 7) 0 0 1 1 (by decide) (by decide)

/-! ### Scoring and legal-move enumeration -/

theorem score_fold (g : Grid) : ∀ (l : List (Nat × Nat)) (s : ℚ × ℚ),
    l.foldl (fun (s : ℚ × ℚ) p =>
        if getCell g p.1 p.2 = 1 then (s.1 + 1, s.2)
        else if getCell g p.1 p.2 = 2 then (s.1, s.2 + 1)
        else s) s
      = (s.1 + (l.countP fun p => getCell g p.1 p.2 == 1 : ℚ),
         s.2 + (l.countP fun p => getCell g p.1 p.2 == 2 : ℚ)) := by
  intro l
  induction l with
  | nil => intro s; simp
  | cons p rest ih =>
    intro s
    by_cases h1 : getCell g p.1 p.2 = 1
    · simp only [List.foldl_cons, h1, if_pos, List.countP_cons]
      rw [ih]
      simp [h1]
      ring
    · by_cases h2 : getCell g p.1 p.2 = 2
      · simp only [List.foldl_cons, h1, h2, if_neg, if_pos, List.countP_cons]
        rw [ih]
        simp [h1, h2]
        ring
      · simp only [List.foldl_cons, h1, h2, if_neg, List.countP_cons]
        rw [ih]
        simp [h1, h2]

/-- C8: `score()` returns Black's stones plus White stones captured by
Black, and White's stones plus Black stones captured by White plus the
komi 2.5 awarded only to White; on the fresh board it returns (0, 2.5). -/
theorem get_score_spec (b : GoBoard) :
    get_score b =
      (((allCells b.size).countP fun p => getCell b.board p.1 p.2 == 1 : ℚ)
          + (b.captured_white : ℚ),
       ((allCells b.size).countP fun p => getCell b.board p.1 p.2 == 2 : ℚ)
          + (b.captured_black : ℚ) + 5 / 2) ∧
    get_score (GoBoard.init 7) = (0, 5 / 2) := by
  have key : ∀ b' : GoBoard, get_score b' =
      (((allCells b'.size).countP fun p => getCell b'.board p.1 p.2 == 1 : ℚ)
          + (b'.captured_white : ℚ),
       ((allCells b'.size).countP fun p => getCell b'.board p.1 p.2 == 2 : ℚ)
          + (b'.captured_black : ℚ) + 5 / 2) := by
    intro b'
    unfold get_score
    rw [score_fold]
    simp
  refine ⟨key b, ?_⟩
  rw [key (GoBoard.init 7)]
  have c1 : ((allCells (GoBoard.init 7).size).countP
      fun p => getCell (GoBoard.init 7).board p.1 p.2 == 1) = 0 := by decide
  have c2 : ((allCells (GoBoard.init 7).size).countP
      fun p => getCell (GoBoard.init 7).board p.1 p.2 == 2) = 0 := by decide
  rw [c1, c2]
  norm_num
  exact ⟨rfl, rfl⟩

theorem foldl_filter_append {α : Type} (P : α → Bool) :
    ∀ (l acc : List α),
      l.foldl (fun acc p => if P p then acc ++ [p] else acc) acc = acc ++ l.filter P := by
  intro l
  induction l with
  | nil => intro acc; simp
  | cons x rest ih =>
    intro acc
    rw [List.foldl_cons, List.filter_cons]
    by_cases h : P x = true
    · rw [if_pos h, if_pos h, ih, List.append_assoc, List.singleton_append]
    · rw [if_neg h, if_neg h, ih]

/-- C9: `legalMoves()` is exactly the row-major enumeration of the cells
passing `isLegalMove`, and in particular never contains an occupied cell or
the current ko point. -/
theorem get_valid_moves_spec (b : GoBoard) :
    get_valid_moves b = (allCells b.size).filter (fun p => is_valid_move b p.1 p.2) ∧
    ∀ p ∈ get_valid_moves b, getCell b.board p.1 p.2 = 0 ∧ b.ko_position ≠ some p := by
  have h1 : get_valid_moves b =
      (allCells b.size).filter (fun p => is_valid_move b p.1 p.2) := by
    unfold get_valid_moves
    rw [foldl_filter_append (fun p : Nat × Nat => is_valid_move b p.1 p.2)]
    simp
  refine ⟨h1, ?_⟩
  intro p hp
  rw [h1, List.mem_filter] at hp
  have hv : is_valid_move b p.1 p.2 = true := hp.2
  have hcell : getCell b.board p.1 p.2 = 0 := by
    by_contra h
    simp [is_valid_move, h] at hv
  refine ⟨hcell, ?_⟩
  intro hko
  have : b.ko_position = some (p.1, p.2) := by rw [hko]
  simp [is_valid_move, hcell, this] at hv

/-! ### Legality characterization -/

theorem would_be_suicide_iff (b : GoBoard) (row col color : Nat) :
    would_be_suicide b row col color = true ↔
      (count_liberties b.size (setCell b.board row col color)
          (get_group b.size (setCell b.board row col color) row col) = 0 ∧
       ∀ q ∈ neighbors b.size row col,
         getCell (setCell b.board row col color) q.1 q.2 = 3 - color →
         count_liberties b.size (setCell b.board row col color)
           (get_group b.size (setCell b.board row col color) q.1 q.2) ≠ 0) := by
  unfold would_be_suicide
  constructor
  · intro h
    rw [Bool.and_eq_true, Bool.not_eq_true'] at h
    obtain ⟨h1, h2⟩ := h
    rw [List.any_eq_false] at h2
    refine ⟨by simpa using h1, ?_⟩
    intro q hq hopp
    have h3 := h2 q hq
    simp only [Bool.and_eq_true, beq_iff_eq, not_and] at h3
    exact h3 hopp
  · rintro ⟨h1, h2⟩
    rw [Bool.and_eq_true, Bool.not_eq_true']
    refine ⟨by simpa using h1, ?_⟩
    rw [List.any_eq_false]
    intro q hq
    simp only [Bool.and_eq_true, beq_iff_eq, not_and]
    exact h2 q hq

/-- C2: for an in-range cell, `isLegalMove` holds exactly when the cell is
empty, is not the current ko point, and the placement is not suicide —
where suicide means the placed stone's resulting group has zero liberties
and no adjacent opposing group is reduced to zero liberties (a capturing
move is legal regardless of the placed stone's own liberties). -/
theorem is_valid_move_iff (b : GoBoard) (row col : Nat)
    (hr : row < b.size) (hc : col < b.size) :
    is_valid_move b row col = true ↔
      (getCell b.board row col = 0 ∧
       b.ko_position ≠ some (row, col) ∧
       ¬(count_liberties b.size (setCell b.board row col b.current_player)
            (get_group b.size (setCell b.board row col b.current_player) row col) = 0 ∧
         ∀ q ∈ neighbors b.size row col,
           getCell (setCell b.board row col b.current_player) q.1 q.2 =
             3 - b.current_player →
           count_liberties b.size (setCell b.board row col b.current_player)
             (get_group b.size (setCell b.board row col b.current_player) q.1 q.2) ≠ 0)) := by
  by_cases h0 : getCell b.board row col = 0
  · by_cases hko : b.ko_position = some (row, col)
    · simp [is_valid_move, h0, hko]
    · rw [← would_be_suicide_iff b row col b.current_player]
      cases hs : would_be_suicide b row col b.current_player <;>
        simp [is_valid_move, h0, hko, hs]
  · simp [is_valid_move, h0]

/-- C2 witness: the characterization evaluated at (0,0) on the fresh
board. -/
theorem is_valid_move_iff_witness :
    (0 : Nat) < (GoBoard.init 7).size ∧
    (is_valid_move (GoBoard.init 7) 0 0 = true ↔
      (getCell (GoBoard.init 7).board 0 0 = 0 ∧
       (GoBoard.init 7).ko_position ≠ some (0, 0) ∧
       ¬(count_liberties (GoBoard.init 7).size
            (setCell (GoBoard.init 7).board 0 0 (GoBoard.init 7).current_player)
            (get_group (GoBoard.init 7).size
              (setCell (GoBoard.init 7).board 0 0 (GoBoard.init 7).current_player) 0 0) = 0 ∧
         ∀ q ∈ neighbors (GoBoard.init 7).size 0 0,
           getCell (setCell (GoBoard.init 7).board 0 0 (GoBoard.init 7).current_player)
               q.1 q.2 = 3 - (GoBoard.init 7).current_player →
           count_liberties (GoBoard.init 7).size
             (setCell (GoBoard.init 7).board 0 0 (GoBoard.init 7).current_player)
             (get_group (GoBoard.init 7).size
               (setCell (GoBoard.init 7).board 0 0 (GoBoard.init 7).current_player)
               q.1 q.2) ≠ 0))) :=
  ⟨by decide, is_valid_move_iff (GoBoard.init 7) 0 0 (by decide) (by decide)⟩

/-! ### The evaluation heuristic as a sum of features -/

theorem foldl_add_map {α : Type} (f : α → ℚ) :
    ∀ (l : List α) (s : ℚ), l.foldl (fun acc x => acc + f x) s = s + (l.map f).sum := by
  intro l
  induction l with
  | nil => intro s; simp
  | cons x rest ih =>
    intro s
    rw [List.foldl_cons, ih, List.map_cons, List.sum_cons]
    ring

/-- C7: the evaluation is exactly the sum of the per-stone presence terms,
the capture terms at 15 points, the per-stone group-liberty terms at 2
points per liberty, and the per-corner terms at 5 points, each counted
positively for the AI's player and negatively for its opponent. -/
theorem evaluate_board_spec (ai : MinimaxAI) (b : GoBoard) (h7 : b.size = 7) :
    evaluate_board ai b =
      ((allCells b.size).map fun p =>
         if getCell b.board p.1 p.2 = ai.player then 10 + centerBonus p.1 p.2
         else if getCell b.board p.1 p.2 = 3 - ai.player then -(10 + centerBonus p.1 p.2)
         else 0).sum
      + ((if ai.player = 1 then (b.captured_white : ℚ) else (b.captured_black : ℚ)) * 15
         - (if ai.player = 1 then (b.captured_black : ℚ) else (b.captured_white : ℚ)) * 15)
      + ((allCells b.size).map fun p =>
         if getCell b.board p.1 p.2 = ai.player then
           (count_liberties b.size b.board (get_group b.size b.board p.1 p.2) : ℚ) * 2
         else if getCell b.board p.1 p.2 = 3 - ai.player then
           -((count_liberties b.size b.board (get_group b.size b.board p.1 p.2) : ℚ) * 2)
         else 0).sum
      + (([(0, 0), (0, b.size - 1), (b.size - 1, 0), (b.size - 1, b.size - 1)] :
            List (Nat × Nat)).map fun p =>
         if getCell b.board p.1 p.2 = ai.player then (5 : ℚ)
         else if getCell b.board p.1 p.2 = 3 - ai.player then -5
         else 0).sum := by
  unfold evaluate_board
  have e1 : (fun (s : ℚ) (p : Nat × Nat) =>
      if getCell b.board p.1 p.2 = ai.player then s + (10 + centerBonus p.1 p.2)
      else if getCell b.board p.1 p.2 = 3 - ai.player then s - (10 + centerBonus p.1 p.2)
      else s) = fun (s : ℚ) (p : Nat × Nat) => s +
        (if getCell b.board p.1 p.2 = ai.player then 10 + centerBonus p.1 p.2
         else if getCell b.board p.1 p.2 = 3 - ai.player then -(10 + centerBonus p.1 p.2)
         else 0) := by
    funext s p
    split_ifs <;> ring
  have e3 : (fun (s : ℚ) (p : Nat × Nat) =>
      if getCell b.board p.1 p.2 = ai.player then
        s + (count_liberties b.size b.board (get_group b.size b.board p.1 p.2) : ℚ) * 2
      else if getCell b.board p.1 p.2 = 3 - ai.player then
        s - (count_liberties b.size b.board (get_group b.size b.board p.1 p.2) : ℚ) * 2
      else s) = fun (s : ℚ) (p : Nat × Nat) => s +
        (if getCell b.board p.1 p.2 = ai.player then
          (count_liberties b.size b.board (get_group b.size b.board p.1 p.2) : ℚ) * 2
         else if getCell b.board p.1 p.2 = 3 - ai.player then
          -((count_liberties b.size b.board (get_group b.size b.board p.1 p.2) : ℚ) * 2)
         else 0) := by
    funext s p
    split_ifs <;> ring
  have e4 : (fun (s : ℚ) (p : Nat × Nat) =>
      if getCell b.board p.1 p.2 = ai.player then s + 5
      else if getCell b.board p.1 p.2 = 3 - ai.player then s - 5
      else s) = fun (s : ℚ) (p : Nat × Nat) => s +
        (if getCell b.board p.1 p.2 = ai.player then (5 : ℚ)
         else if getCell b.board p.1 p.2 = 3 - ai.player then -5
         else 0) := by
    funext s p
    split_ifs <;> ring
  dsimp only
  rw [e1, e3, e4, foldl_add_map, foldl_add_map, foldl_add_map]
  by_cases hpl : ai.player = 1
  · rw [if_pos hpl, if_pos hpl, if_pos hpl]
    ring
  · rw [if_neg hpl, if_neg hpl, if_neg hpl]
    ring

/-- C7 witness: the formula on the fresh 7x7 board, for the White AI. -/
theorem evaluate_board_spec_witness :
    (GoBoard.init 7).size = 7 ∧
    evaluate_board ⟨2, 2⟩ (GoBoard.init 7) =
      ((allCells (GoBoard.init 7).size).map fun p =>
         if getCell (GoBoard.init 7).board p.1 p.2 = (2 : Nat) then 10 + centerBonus p.1 p.2
         else if getCell (GoBoard.init 7).board p.1 p.2 = 3 - 2 then
           -(10 + centerBonus p.1 p.2)
         else 0).sum
      + (((GoBoard.init 7).captured_black : ℚ) * 15
         - ((GoBoard.init 7).captured_white : ℚ) * 15)
      + ((allCells (GoBoard.init 7).size).map fun p =>
         if getCell (GoBoard.init 7).board p.1 p.2 = (2 : Nat) then
           (count_liberties (GoBoard.init 7).size (GoBoard.init 7).board
             (get_group (GoBoard.init 7).size (GoBoard.init 7).board p.1 p.2) : ℚ) * 2
         else if getCell (GoBoard.init 7).board p.1 p.2 = 3 - 2 then
           -((count_liberties (GoBoard.init 7).size (GoBoard.init 7).board
             (get_group (GoBoard.init 7).size (GoBoard.init 7).board p.1 p.2) : ℚ) * 2)
         else 0).sum
      + (([(0, 0), (0, (GoBoard.init 7).size - 1), ((GoBoard.init 7).size - 1, 0),
            ((GoBoard.init 7).size - 1, (GoBoard.init 7).size - 1)] :
            List (Nat × Nat)).map fun p =>
         if getCell (GoBoard.init 7).board p.1 p.2 = (2 : Nat) then (5 : ℚ)
         else if getCell (GoBoard.init 7).board p.1 p.2 = 3 - 2 then -5
         else 0).sum :=
  ⟨rfl, evaluate_board_spec ⟨2, 2⟩ (GoBoard.init 7) rfl⟩

/-! ### Well-formed grids and cell access -/

/-- A grid of exactly `size` rows of `size` cells each. -/
def WFg (size : Nat) (g : Grid) : Prop :=
  g.length = size ∧ ∀ row ∈ g, row.length = size

theorem WFg_init (size : Nat) :
    WFg size (List.replicate size (List.replicate size (0 : Nat))) := by
  constructor
  · simp
  · intro row hrow
    rw [List.eq_of_mem_replicate hrow]
    simp

theorem getCell_eq_getElem? (g : Grid) (row col : Nat) :
    getCell g row col = ((g[row]?.getD [] : List Nat)[col]?).getD 0 := by
  unfold getCell
  rw [List.getD_eq_getElem?_getD, List.getD_eq_getElem?_getD]

theorem row_len (size : Nat) (g : Grid) (hwf : WFg size g) (row : Nat) (hr : row < size) :
    (g.getD row []).length = size := by
  have hrl : row < g.length := by rw [hwf.1]; exact hr
  rw [List.getD_eq_getElem _ _ hrl]
  exact hwf.2 _ (List.getElem_mem hrl)

theorem getCell_oob (size : Nat) (g : Grid) (hwf : WFg size g) (row col : Nat)
    (h : size ≤ row ∨ size ≤ col) : getCell g row col = 0 := by
  unfold getCell
  rcases h with h | h
  · have hrow : g.getD row [] = [] :=
      List.getD_eq_default _ _ (by rw [hwf.1]; exact h)
    rw [hrow]
    exact List.getD_eq_default _ _ (Nat.zero_le col)
  · by_cases hr : row < size
    · exact List.getD_eq_default _ _ (by rw [row_len size g hwf row hr]; exact h)
    · have hrow : g.getD row [] = [] :=
        List.getD_eq_default _ _ (by rw [hwf.1]; exact Nat.le_of_not_lt hr)
      rw [hrow]
      exact List.getD_eq_default _ _ (Nat.zero_le col)

theorem getCell_setCell_self (size : Nat) (g : Grid) (hwf : WFg size g)
    (row col v : Nat) (hr : row < size) (hc : col < size) :
    getCell (setCell g row col v) row col = v := by
  have hrl : row < g.length := by rw [hwf.1]; exact hr
  have hcl : col < (g.getD row []).length := by rw [row_len size g hwf row hr]; exact hc
  rw [getCell_eq_getElem?]
  unfold setCell
  rw [List.getElem?_set, if_pos rfl, if_pos hrl, Option.getD_some,
    List.getElem?_set, if_pos rfl, if_pos hcl, Option.getD_some]

theorem getCell_setCell_ne (g : Grid) (row col v row' col' : Nat)
    (h : (row', col') ≠ (row, col)) :
    getCell (setCell g row col v) row' col' = getCell g row' col' := by
  rw [getCell_eq_getElem?, getCell_eq_getElem?]
  unfold setCell
  by_cases hrow : row = row'
  · subst hrow
    have hcol : col ≠ col' := by
      intro hc
      exact h (by rw [hc])
    rw [List.getElem?_set, if_pos rfl]
    by_cases hrl : row < g.length
    · rw [if_pos hrl, Option.getD_some, List.getElem?_set_ne hcol,
        List.getD_eq_getElem?_getD]
    · rw [if_neg hrl, List.getElem?_eq_none (Nat.le_of_not_lt hrl)]
  · rw [List.getElem?_set_ne hrow]

theorem WFg_setCell (size : Nat) (g : Grid) (hwf : WFg size g) (row col v : Nat) :
    WFg size (setCell g row col v) := by
  by_cases hrow : row < size
  · constructor
    · unfold setCell
      rw [List.length_set, hwf.1]
    · intro r hr
      rcases List.mem_or_eq_of_mem_set hr with hmem | heq
      · exact hwf.2 r hmem
      · subst heq
        rw [List.length_set]
        exact row_len size g hwf row hrow
  · unfold setCell
    rw [List.set_eq_of_length_le (by rw [hwf.1]; exact Nat.le_of_not_lt hrow)]
    exact hwf

/-! ### The row-major cell enumeration -/

theorem mem_allCells (size : Nat) (p : Nat × Nat) :
    p ∈ allCells size ↔ p.1 < size ∧ p.2 < size := by
  obtain ⟨r, c⟩ := p
  unfold allCells
  simp only [List.mem_flatMap, List.mem_map, List.mem_range, Prod.mk.injEq]
  constructor
  · rintro ⟨a, ha, b, hb, h1, h2⟩
    exact ⟨h1 ▸ ha, h2 ▸ hb⟩
  · rintro ⟨h1, h2⟩
    exact ⟨r, h1, c, h2, rfl, rfl⟩

theorem nodup_allCells (size : Nat) : (allCells size).Nodup := by
  unfold allCells
  rw [List.nodup_flatMap]
  constructor
  · intro r _
    exact (List.nodup_range size).map (fun a b => by simp)
  · have hlt := List.pairwise_lt_range size
    refine hlt.imp ?_
    intro a b hab x hxa hxb
    simp only [List.mem_map, List.mem_range] at hxa hxb
    obtain ⟨c1, _, h1⟩ := hxa
    obtain ⟨c2, _, h2⟩ := hxb
    rw [← h1] at h2
    exact absurd (congrArg Prod.fst h2) (Ne.symm (Nat.ne_of_lt hab))

/-! ### Counting helpers -/

theorem countP_or_disjoint {α : Type} (p q : α → Bool) :
    ∀ l : List α, (∀ a ∈ l, ¬(p a = true ∧ q a = true)) →
      l.countP (fun a => p a || q a) = l.countP p + l.countP q := by
  intro l
  induction l with
  | nil => intro _; simp
  | cons x rest ih =>
    intro h
    rw [List.countP_cons, List.countP_cons, List.countP_cons,
      ih (fun a ha => h a (List.mem_cons_of_mem x ha))]
    have hx := h x (List.mem_cons_self x rest)
    cases hp : p x <;> cases hq : q x <;> simp [hp, hq] at hx ⊢ <;> omega

theorem countP_beq_of_nodup {α : Type} [BEq α] [LawfulBEq α] :
    ∀ l : List α, l.Nodup → ∀ x ∈ l, l.countP (fun a => a == x) = 1 := by
  intro l
  induction l with
  | nil =>
    intro _ x hx
    simp at hx
  | cons y rest ih =>
    intro hnd x hx
    rw [List.countP_cons]
    cases hyx : (y == x)
    · have hxy : x ≠ y := fun h => by simp [h] at hyx
      have hxrest : x ∈ rest := by
        rcases List.mem_cons.1 hx with h | h
        · exact absurd h hxy
        · exact h
      rw [ih (List.nodup_cons.1 hnd).2 x hxrest]
      simp
    · have hxy : y = x := by simpa using hyx
      subst hxy
      have hyrest : y ∉ rest := (List.nodup_cons.1 hnd).1
      have hzero : rest.countP (fun a => a == y) = 0 := by
        rw [List.countP_eq_zero]
        intro a ha hbeq
        rw [beq_iff_eq] at hbeq
        subst hbeq
        exact hyrest ha
      rw [hzero]
      simp

theorem countP_contains_of_nodup {α : Type} [BEq α] [LawfulBEq α] :
    ∀ s : List α, s.Nodup → ∀ l : List α, l.Nodup → (∀ x ∈ s, x ∈ l) →
      l.countP (fun a => s.contains a) = s.length := by
  intro s
  induction s with
  | nil =>
    intro _ l _ _
    simp
  | cons x s' ih =>
    intro hs l hl hsub
    have hxs : x ∉ s' := (List.nodup_cons.1 hs).1
    have hcongr : l.countP (fun a => (x :: s').contains a) =
        l.countP (fun a => (a == x) || s'.contains a) := by
      apply List.countP_congr
      intro a _
      simp [List.contains_cons, Bool.or_comm]
    rw [hcongr, countP_or_disjoint]
    · rw [countP_beq_of_nodup l hl x (hsub x (List.mem_cons_self x s')),
        ih (List.nodup_cons.1 hs).2 l hl
          (fun y hy => hsub y (List.mem_cons_of_mem x hy))]
      simp [Nat.add_comm]
    · intro a _
      rintro ⟨h1, h2⟩
      rw [beq_iff_eq] at h1
      subst h1
      exact hxs (by simpa using h2)

theorem countP_eq_one_exists_unique {α : Type} (l : List α) (P : α → Bool)
    (h : l.countP P = 1) :
    ∃ a ∈ l, P a = true ∧ ∀ b ∈ l, P b = true → b = a := by
  rw [List.countP_eq_length_filter] at h
  obtain ⟨a, ha⟩ := List.length_eq_one.1 h
  have hmem : a ∈ l.filter P := by rw [ha]; exact List.mem_singleton_self a
  rw [List.mem_filter] at hmem
  refine ⟨a, hmem.1, hmem.2, ?_⟩
  intro b hb hPb
  have : b ∈ l.filter P := List.mem_filter.2 ⟨hb, hPb⟩
  rw [ha] at this
  exact List.mem_singleton.1 this

/-! ### Flood-fill facts -/

theorem mem_neighbors_range (size row col : Nat) (q : Nat × Nat)
    (hq : q ∈ neighbors size row col) : q.1 < size ∧ q.2 < size := by
  unfold neighbors at hq
  simp only [List.mem_filterMap] at hq
  obtain ⟨a, _, h⟩ := hq
  by_cases hcond : 0 ≤ a.1 ∧ a.1 < (size : Int) ∧ 0 ≤ a.2 ∧ a.2 < (size : Int)
  · rw [if_pos hcond] at h
    obtain ⟨h1, h2, h3, h4⟩ := hcond
    obtain ⟨hq1, hq2⟩ : a.1.toNat = q.1 ∧ a.2.toNat = q.2 := by
      have := Option.some.inj h
      exact ⟨congrArg Prod.fst this, congrArg Prod.snd this⟩
    omega
  · rw [if_neg hcond] at h
    cases h

theorem get_group_aux_mem (size : Nat) (g : Grid) (color : Nat) :
    ∀ (fuel : Nat) (stack group : List (Nat × Nat)),
      (∀ q ∈ stack, getCell g q.1 q.2 = color ∧ q.1 < size ∧ q.2 < size) →
      (∀ q ∈ group, getCell g q.1 q.2 = color ∧ q.1 < size ∧ q.2 < size) →
      ∀ q ∈ get_group_aux size g color fuel stack group,
        getCell g q.1 q.2 = color ∧ q.1 < size ∧ q.2 < size := by
  intro fuel
  induction fuel with
  | zero =>
    intro stack group hs hg
    simpa [get_group_aux] using hg
  | succ n ih =>
    intro stack group hs hg
    cases stack with
    | nil => simpa [get_group_aux] using hg
    | cons p rest =>
      simp only [get_group_aux]
      by_cases hmem : p ∈ group
      · rw [if_pos hmem]
        exact ih rest group (fun q hq => hs q (List.mem_cons_of_mem p hq)) hg
      · rw [if_neg hmem]
        apply ih
        · intro q hq
          rcases List.mem_append.1 hq with h | h
          · rw [List.mem_filter] at h
            have hrange := mem_neighbors_range size p.1 p.2 q h.1
            have hcol : getCell g q.1 q.2 = color := by
              have h2 := h.2
              simp only [Bool.and_eq_true, beq_iff_eq] at h2
              exact h2.1
            exact ⟨hcol, hrange⟩
          · exact hs q (List.mem_cons_of_mem p h)
        · intro q hq
          rcases List.mem_append.1 hq with h | h
          · exact hg q h
          · rw [List.mem_singleton] at h
            subst h
            exact hs _ (List.mem_cons_self _ _)

theorem get_group_aux_nodup (size : Nat) (g : Grid) (color : Nat) :
    ∀ (fuel : Nat) (stack group : List (Nat × Nat)), group.Nodup →
      (get_group_aux size g color fuel stack group).Nodup := by
  intro fuel
  induction fuel with
  | zero =>
    intro stack group hg
    simpa [get_group_aux] using hg
  | succ n ih =>
    intro stack group hg
    cases stack with
    | nil => simpa [get_group_aux] using hg
    | cons p rest =>
      simp only [get_group_aux]
      by_cases hmem : p ∈ group
      · rw [if_pos hmem]
        exact ih rest group hg
      · rw [if_neg hmem]
        apply ih
        simp [List.nodup_append, hg, hmem]

theorem get_group_mem (size : Nat) (g : Grid) (row col : Nat)
    (hr : row < size) (hc : col < size) :
    ∀ q ∈ get_group size g row col,
      getCell g q.1 q.2 = getCell g row col ∧ q.1 < size ∧ q.2 < size := by
  unfold get_group
  by_cases h0 : getCell g row col = 0
  · simp [h0]
  · rw [if_neg h0]
    apply get_group_aux_mem
    · intro q hq
      rw [List.mem_singleton] at hq
      subst hq
      exact ⟨rfl, hr, hc⟩
    · intro q hq
      simp at hq

theorem get_group_nodup (size : Nat) (g : Grid) (row col : Nat) :
    (get_group size g row col).Nodup := by
  unfold get_group
  by_cases h0 : getCell g row col = 0
  · simp [h0]
  · rw [if_neg h0]
    exact get_group_aux_nodup size g _ _ _ [] List.nodup_nil

/-! ### Zeroing a list of cells -/

theorem WFg_zeroFold (size : Nat) :
    ∀ (l : List (Nat × Nat)) (g : Grid), WFg size g →
      WFg size (l.foldl (fun gg q => setCell gg q.1 q.2 0) g) := by
  intro l
  induction l with
  | nil => intro g hwf; simpa using hwf
  | cons q rest ih =>
    intro g hwf
    rw [List.foldl_cons]
    exact ih _ (WFg_setCell size g hwf q.1 q.2 0)

theorem getCell_zeroFold (size : Nat) :
    ∀ (l : List (Nat × Nat)) (g : Grid), WFg size g →
      (∀ q ∈ l, q.1 < size ∧ q.2 < size) →
      ∀ r c, getCell (l.foldl (fun gg q => setCell gg q.1 q.2 0) g) r c =
        if (r, c) ∈ l then 0 else getCell g r c := by
  intro l
  induction l with
  | nil =>
    intro g _ _ r c
    simp
  | cons q rest ih =>
    intro g hwf hrange r c
    rw [List.foldl_cons,
      ih (setCell g q.1 q.2 0) (WFg_setCell size g hwf q.1 q.2 0)
        (fun x hx => hrange x (List.mem_cons_of_mem q hx))]
    by_cases hmem : (r, c) ∈ rest
    · rw [if_pos hmem, if_pos (List.mem_cons_of_mem q hmem)]
    · rw [if_neg hmem]
      by_cases heq : (r, c) = q
      · rw [if_pos (by rw [heq]; exact List.mem_cons_self q rest)]
        obtain ⟨h1, h2⟩ : r = q.1 ∧ c = q.2 :=
          ⟨congrArg Prod.fst heq, congrArg Prod.snd heq⟩
        rw [h1, h2]
        exact getCell_setCell_self size g hwf q.1 q.2 0
          (hrange q (List.mem_cons_self _ rest)).1
          (hrange q (List.mem_cons_self _ rest)).2
      · rw [if_neg (by simp [heq, hmem])]
        exact getCell_setCell_ne g q.1 q.2 0 r c heq

/-! ### Specification of capture removal -/

/-- A cell where `supG` (the post-state grid) disagrees with `g`. -/
def cellDiff (g g2 : Grid) (p : Nat × Nat) : Bool :=
  !(getCell g2 p.1 p.2 == getCell g p.1 p.2)

/-- The removal-scan invariant: the grid only ever changes by turning cells
that held `opp` into empty cells, and the running count is exactly the
number of changed cells. -/
def removeInv (size : Nat) (g : Grid) (opp : Nat)
    (st : Grid × List (Nat × Nat) × Nat) : Prop :=
  (∀ r c, getCell st.1 r c = getCell g r c ∨
    (getCell st.1 r c = 0 ∧ getCell g r c = opp)) ∧
  st.2.2 = (allCells size).countP (cellDiff g st.1) ∧
  WFg size st.1

theorem removeStep_inv (size : Nat) (g : Grid) (opp : Nat) (hopp : opp ≠ 0)
    (st : Grid × List (Nat × Nat) × Nat) (p : Nat × Nat)
    (hp : p.1 < size ∧ p.2 < size) (hinv : removeInv size g opp st) :
    removeInv size g opp (removeStep size opp st p) := by
  unfold removeStep
  by_cases hguard : (getCell st.1 p.1 p.2 == opp && !(st.2.1.contains p)) = true
  · rw [if_pos hguard]
    have hseed : getCell st.1 p.1 p.2 = opp := by
      have hg2 := hguard
      rw [Bool.and_eq_true] at hg2
      exact beq_iff_eq.1 hg2.1
    have hmem := get_group_mem size st.1 p.1 p.2 hp.1 hp.2
    have hnd := get_group_nodup size st.1 p.1 p.2
    have hmem2 : ∀ q ∈ get_group size st.1 p.1 p.2,
        getCell st.1 q.1 q.2 = opp ∧ q.1 < size ∧ q.2 < size := by
      intro q hq
      obtain ⟨h1, h2⟩ := hmem q hq
      exact ⟨by rw [h1, hseed], h2⟩
    by_cases hlib : (count_liberties size st.1 (get_group size st.1 p.1 p.2) == 0) = true
    · rw [if_pos hlib]
      have hz := getCell_zeroFold size (get_group size st.1 p.1 p.2) st.1 hinv.2.2
        (fun q hq => (hmem2 q hq).2)
      have horig : ∀ q ∈ get_group size st.1 p.1 p.2, getCell g q.1 q.2 = opp := by
        intro q hq
        rcases hinv.1 q.1 q.2 with h | h
        · rw [← h]
          exact (hmem2 q hq).1
        · exact h.2
      refine ⟨?_, ?_, ?_⟩
      · intro r c
        rw [hz r c]
        by_cases hrc : (r, c) ∈ get_group size st.1 p.1 p.2
        · rw [if_pos hrc]
          exact Or.inr ⟨rfl, horig (r, c) hrc⟩
        · rw [if_neg hrc]
          exact hinv.1 r c
      · show st.2.2 + (get_group size st.1 p.1 p.2).length = _
        have hcongr : (allCells size).countP
            (cellDiff g ((get_group size st.1 p.1 p.2).foldl
              (fun gg q => setCell gg q.1 q.2 0) st.1)) =
            (allCells size).countP
              (fun q => cellDiff g st.1 q || (get_group size st.1 p.1 p.2).contains q) := by
          apply List.countP_congr
          intro q _
          unfold cellDiff
          rw [hz q.1 q.2]
          by_cases hqg : q ∈ get_group size st.1 p.1 p.2
          · rw [if_pos hqg]
            have hcontains : (get_group size st.1 p.1 p.2).contains q = true := by
              simpa using hqg
            rw [hcontains, Bool.or_true]
            have : (0 == getCell g q.1 q.2) = false := by
              rw [horig q hqg]
              simp [Ne.symm hopp]
            rw [this]
            simp
          · rw [if_neg hqg]
            have hcontains : (get_group size st.1 p.1 p.2).contains q = false := by
              simpa using hqg
            rw [hcontains, Bool.or_false]
        rw [hcongr, countP_or_disjoint]
        · rw [← hinv.2.1]
          congr 1
          show (get_group size st.1 p.1 p.2).length =
            (allCells size).countP (fun a => (get_group size st.1 p.1 p.2).contains a)
          exact (countP_contains_of_nodup _ hnd _ (nodup_allCells size)
            (fun q hq => (mem_allCells size q).2 (hmem2 q hq).2)).symm
        · intro q _
          rintro ⟨h1, h2⟩
          have hqg : q ∈ get_group size st.1 p.1 p.2 := by simpa using h2
          have : getCell st.1 q.1 q.2 = getCell g q.1 q.2 := by
            rw [(hmem2 q hqg).1, horig q hqg]
          unfold cellDiff at h1
          rw [this] at h1
          simp at h1
      · exact WFg_zeroFold size _ st.1 hinv.2.2
    · rw [if_neg hlib]
      exact ⟨hinv.1, hinv.2.1, hinv.2.2⟩
  · rw [if_neg hguard]
    exact hinv

theorem removeFold_inv (size : Nat) (g : Grid) (opp : Nat) (hopp : opp ≠ 0) :
    ∀ (l : List (Nat × Nat)) (st : Grid × List (Nat × Nat) × Nat),
      (∀ p ∈ l, p.1 < size ∧ p.2 < size) → removeInv size g opp st →
      removeInv size g opp (l.foldl (removeStep size opp) st) := by
  intro l
  induction l with
  | nil => intro st _ hinv; simpa using hinv
  | cons p rest ih =>
    intro st hrange hinv
    rw [List.foldl_cons]
    exact ih _ (fun q hq => hrange q (List.mem_cons_of_mem p hq))
      (removeStep_inv size g opp hopp st p (hrange p (List.mem_cons_self p rest)) hinv)

/-- What `remove_captured_stones` does: cells change only from `opp` to
empty, the returned count is exactly the number of changed cells, and the
grid stays well-formed. -/
theorem remove_spec (size : Nat) (g : Grid) (opp : Nat) (hopp : opp ≠ 0)
    (hwf : WFg size g) :
    (∀ r c, getCell (remove_captured_stones size g opp).1 r c = getCell g r c ∨
      (getCell (remove_captured_stones size g opp).1 r c = 0 ∧ getCell g r c = opp)) ∧
    (remove_captured_stones size g opp).2 =
      (allCells size).countP (cellDiff g (remove_captured_stones size g opp).1) ∧
    WFg size (remove_captured_stones size g opp).1 := by
  have hinit : removeInv size g opp (g, [], 0) := by
    refine ⟨fun r c => Or.inl rfl, ?_, hwf⟩
    show 0 = (allCells size).countP (cellDiff g g)
    symm
    rw [List.countP_eq_zero]
    intro q _
    unfold cellDiff
    simp
  have h := removeFold_inv size g opp hopp (allCells size) (g, [], 0)
    (fun p hp => (mem_allCells size p).1 hp) hinit
  exact ⟨h.1, h.2.1, h.2.2⟩

/-! ### The ko-point search -/

theorem find?_eq_some_of_unique {α : Type} (P : α → Bool) :
    ∀ (l : List α) (a : α), a ∈ l → P a = true → (∀ b ∈ l, P b = true → b = a) →
      l.find? P = some a := by
  intro l
  induction l with
  | nil =>
    intro a ha
    simp at ha
  | cons x rest ih =>
    intro a ha hP huniq
    by_cases hx : P x = true
    · rw [List.find?_cons_of_pos rest hx, huniq x (List.mem_cons_self x rest) hx]
    · rw [List.find?_cons_of_neg rest hx]
      have ha' : a ∈ rest := by
        rcases List.mem_cons.1 ha with h | h
        · subst h
          exact absurd hP hx
        · exact h
      exact ih a ha' hP (fun y hy => huniq y (List.mem_cons_of_mem x hy))

theorem findKo_eq_some (size : Nat) (prev cur : Grid) (opp : Nat) (p : Nat × Nat)
    (hp1 : p.1 < size) (hp2 : p.2 < size)
    (hcond : (getCell prev p.1 p.2 == opp && getCell cur p.1 p.2 == 0) = true)
    (huniq : ∀ q : Nat × Nat, q.1 < size → q.2 < size →
      (getCell prev q.1 q.2 == opp && getCell cur q.1 q.2 == 0) = true → q = p) :
    findKo size prev cur opp = some p := by
  have key : ∀ (rows : List Nat) (st : Option (Nat × Nat)), (∀ r ∈ rows, r < size) →
      (p.1 ∈ rows → rows.foldl (fun st r =>
          match (List.range size).find? (fun c =>
              getCell prev r c == opp && getCell cur r c == 0) with
          | some c => some (r, c)
          | none => st) st = some p) ∧
      (p.1 ∉ rows → rows.foldl (fun st r =>
          match (List.range size).find? (fun c =>
              getCell prev r c == opp && getCell cur r c == 0) with
          | some c => some (r, c)
          | none => st) st = st) := by
    intro rows
    induction rows with
    | nil =>
      intro st _
      exact ⟨fun h => absurd h (List.not_mem_nil p.1), fun _ => rfl⟩
    | cons r rest ih =>
      intro st hlt
      have hrsize : r < size := hlt r (List.mem_cons_self r rest)
      have htail : ∀ r' ∈ rest, r' < size :=
        fun r' hr' => hlt r' (List.mem_cons_of_mem r hr')
      by_cases hr : r = p.1
      · have hfind : (List.range size).find? (fun c =>
            getCell prev r c == opp && getCell cur r c == 0) = some p.2 := by
          apply find?_eq_some_of_unique _ _ p.2 (List.mem_range.2 hp2)
          · rw [hr]
            exact hcond
          · intro c hc hPc
            exact congrArg Prod.snd (huniq (r, c) hrsize (List.mem_range.1 hc) hPc)
        rw [List.foldl_cons]
        have hst : (match (List.range size).find? (fun c =>
            getCell prev r c == opp && getCell cur r c == 0) with
            | some c => some (r, c)
            | none => st) = some p := by
          rw [hfind, hr]
        rw [hst]
        constructor
        · intro _
          by_cases hrest : p.1 ∈ rest
          · exact (ih (some p) htail).1 hrest
          · exact (ih (some p) htail).2 hrest
        · intro habs
          exact absurd (List.mem_cons.2 (Or.inl hr.symm)) habs
      · have hfind : (List.range size).find? (fun c =>
            getCell prev r c == opp && getCell cur r c == 0) = none := by
          rw [List.find?_eq_none]
          intro c hc hPc
          exact hr (congrArg Prod.fst (huniq (r, c) hrsize (List.mem_range.1 hc) hPc))
        rw [List.foldl_cons]
        have hst : (match (List.range size).find? (fun c =>
            getCell prev r c == opp && getCell cur r c == 0) with
            | some c => some (r, c)
            | none => st) = st := by
          rw [hfind]
        rw [hst]
        constructor
        · intro hmem
          have hrest : p.1 ∈ rest := by
            rcases List.mem_cons.1 hmem with h | h
            · exact absurd h.symm hr
            · exact h
          exact (ih st htail).1 hrest
        · intro hmem
          exact (ih st htail).2 (fun h => hmem (List.mem_cons_of_mem r h))
  unfold findKo
  exact (key (List.range size) none (fun r hr => List.mem_range.1 hr)).1
    (List.mem_range.2 hp1)

theorem findKo_mem_cond (size : Nat) (prev cur : Grid) (opp : Nat) (q : Nat × Nat)
    (h : findKo size prev cur opp = some q) :
    q.1 < size ∧ q.2 < size ∧
      (getCell prev q.1 q.2 == opp && getCell cur q.1 q.2 == 0) = true := by
  have key : ∀ (rows : List Nat) (st : Option (Nat × Nat)), (∀ r ∈ rows, r < size) →
      (∀ q', st = some q' → q'.1 < size ∧ q'.2 < size ∧
        (getCell prev q'.1 q'.2 == opp && getCell cur q'.1 q'.2 == 0) = true) →
      ∀ q', rows.foldl (fun st r =>
          match (List.range size).find? (fun c =>
              getCell prev r c == opp && getCell cur r c == 0) with
          | some c => some (r, c)
          | none => st) st = some q' →
        q'.1 < size ∧ q'.2 < size ∧
          (getCell prev q'.1 q'.2 == opp && getCell cur q'.1 q'.2 == 0) = true := by
    intro rows
    induction rows with
    | nil =>
      intro st _ hst q' hq'
      exact hst q' hq'
    | cons r rest ih =>
      intro st hlt hst
      rw [List.foldl_cons]
      refine ih _ (fun r' hr' => hlt r' (List.mem_cons_of_mem r hr')) ?_
      intro q' hq'
      cases hfind : (List.range size).find? (fun c =>
          getCell prev r c == opp && getCell cur r c == 0) with
      | some c =>
        rw [hfind] at hq'
        have hq'' : (r, c) = q' := Option.some.inj hq'
        rw [← hq'']
        have hPc : (getCell prev r c == opp && getCell cur r c == 0) = true :=
          @List.find?_some Nat (fun c => getCell prev r c == opp && getCell cur r c == 0)
            c (List.range size) hfind
        exact ⟨hlt r (List.mem_cons_self r rest),
          List.mem_range.1 (List.mem_of_find?_eq_some hfind), hPc⟩
      | none =>
        rw [hfind] at hq'
        exact hst q' hq'
  unfold findKo at h
  exact key (List.range size) none (fun r hr => List.mem_range.1 hr)
    (fun q' hq' => by cases hq') q h

/-! ### The capture count of a move as the number of changed cells -/

theorem capture_match_count (b : GoBoard) (row col : Nat)
    (hwf : WFg b.size b.board)
    (hp : b.current_player = 1 ∨ b.current_player = 2)
    (hr : row < b.size) (hc : col < b.size)
    (hv : is_valid_move b row col = true) :
    (allCells b.size).countP (fun q =>
        getCell b.board q.1 q.2 == 3 - b.current_player &&
        getCell (remove_captured_stones b.size
            (setCell b.board row col b.current_player)
            (3 - b.current_player)).1 q.1 q.2 == 0) =
      (remove_captured_stones b.size (setCell b.board row col b.current_player)
        (3 - b.current_player)).2 := by
  have hopp : (3 - b.current_player) ≠ 0 := by
    rcases hp with h | h <;> rw [h] <;> decide
  have hPne : b.current_player ≠ 3 - b.current_player := by
    rcases hp with h | h <;> rw [h] <;> decide
  have hempty : getCell b.board row col = 0 := by
    by_contra h
    simp [is_valid_move, h] at hv
  have hwfp : WFg b.size (setCell b.board row col b.current_player) :=
    WFg_setCell b.size b.board hwf row col b.current_player
  have hrem := remove_spec b.size (setCell b.board row col b.current_player)
    (3 - b.current_player) hopp hwfp
  symm
  rw [hrem.2.1]
  apply List.countP_congr
  intro q hq
  unfold cellDiff
  by_cases hqe : q = (row, col)
  · have hrc : getCell (setCell b.board row col b.current_player) q.1 q.2 =
        b.current_player := by
      rw [hqe]
      exact getCell_setCell_self b.size b.board hwf row col b.current_player hr hc
    have hremq : getCell (remove_captured_stones b.size
        (setCell b.board row col b.current_player) (3 - b.current_player)).1 q.1 q.2 =
        getCell (setCell b.board row col b.current_player) q.1 q.2 := by
      rcases hrem.1 q.1 q.2 with h | h
      · exact h
      · rw [hrc] at h
        exact absurd h.2 hPne
    rw [hremq, hrc]
    have hbq : getCell b.board q.1 q.2 = 0 := by rw [hqe]; exact hempty
    rw [hbq]
    simp [Ne.symm hopp, hPne]
  · have hplq : getCell (setCell b.board row col b.current_player) q.1 q.2 =
        getCell b.board q.1 q.2 :=
      getCell_setCell_ne b.board row col b.current_player q.1 q.2
        (by intro h; exact hqe (by rw [← h]))
    rcases hrem.1 q.1 q.2 with h | h
    · rw [h, hplq]
      constructor
      · intro hd
        simp at hd
      · intro hm
        rw [Bool.and_eq_true, beq_iff_eq, beq_iff_eq] at hm
        obtain ⟨hm1, hm2⟩ := hm
        rw [hm2] at hm1
        exact absurd hm1.symm hopp
    · have hbq : getCell b.board q.1 q.2 = 3 - b.current_player := by
        rw [← hplq]
        exact h.2
      rw [h.1, h.2, hbq]
      simp [Ne.symm hopp]

/-! ### The ko rule -/

theorem ko_point_illegal (b : GoBoard) (q : Nat × Nat)
    (h : b.ko_position = some q) : is_valid_move b q.1 q.2 = false := by
  unfold is_valid_move
  by_cases h0 : getCell b.board q.1 q.2 ≠ 0
  · rw [if_pos h0]
  · rw [if_neg h0, if_pos (show b.ko_position = some (q.1, q.2) from h)]

theorem make_move_wf (b : GoBoard) (row col : Nat) (hwf : WFg b.size b.board)
    (hp : b.current_player = 1 ∨ b.current_player = 2)
    (hv : is_valid_move b row col = true) :
    WFg b.size (make_move b row col).2.board := by
  rw [make_move_board b row col hv]
  have hopp : (3 - b.current_player) ≠ 0 := by
    rcases hp with h | h <;> rw [h] <;> decide
  exact (remove_spec b.size _ _ hopp
    (WFg_setCell b.size b.board hwf row col b.current_player)).2.2

/-- A successful move that captures exactly one stone: there is a unique
cell that held an opposing stone before the move and is empty after it, and
the ko point is set to exactly that cell. -/
theorem make_move_single_capture_ko (b : GoBoard) (row col : Nat)
    (hwf : WFg b.size b.board)
    (hp : b.current_player = 1 ∨ b.current_player = 2)
    (hr : row < b.size) (hc : col < b.size)
    (hv : is_valid_move b row col = true)
    (h1 : (remove_captured_stones b.size (setCell b.board row col b.current_player)
      (3 - b.current_player)).2 = 1) :
    ∃ q : Nat × Nat,
      getCell b.board q.1 q.2 = 3 - b.current_player ∧
      getCell (make_move b row col).2.board q.1 q.2 = 0 ∧
      (∀ q' : Nat × Nat, q'.1 < b.size → q'.2 < b.size →
        getCell b.board q'.1 q'.2 = 3 - b.current_player →
        getCell (make_move b row col).2.board q'.1 q'.2 = 0 → q' = q) ∧
      (make_move b row col).2.ko_position = some q := by
  have hcount := capture_match_count b row col hwf hp hr hc hv
  rw [h1] at hcount
  obtain ⟨q, hqmem, hqP, huniq⟩ := countP_eq_one_exists_unique _ _ hcount
  rw [Bool.and_eq_true, beq_iff_eq, beq_iff_eq] at hqP
  have hboard := make_move_board b row col hv
  have hfk : findKo b.size b.board
      (remove_captured_stones b.size (setCell b.board row col b.current_player)
        (3 - b.current_player)).1 (3 - b.current_player) = some q := by
    apply findKo_eq_some _ _ _ _ q ((mem_allCells b.size q).1 hqmem).1
      ((mem_allCells b.size q).1 hqmem).2
    · rw [Bool.and_eq_true, beq_iff_eq, beq_iff_eq]
      exact hqP
    · intro q' h1' h2' hcond'
      exact huniq q' ((mem_allCells b.size q').2 ⟨h1', h2'⟩) hcond'
  refine ⟨q, hqP.1, by rw [hboard]; exact hqP.2, ?_, ?_⟩
  · intro q' h1' h2' he1 he2
    rw [hboard] at he2
    apply huniq q' ((mem_allCells b.size q').2 ⟨h1', h2'⟩)
    rw [Bool.and_eq_true, beq_iff_eq, beq_iff_eq]
    exact ⟨he1, he2⟩
  · rw [make_move_ko b row col hv, if_pos h1, hfk]

/-- C5 (amended): a successful move that captures exactly one stone sets
the ko point to the unique captured (now empty) cell; capturing zero or at
least two stones clears the ko point; playing on the ko point is illegal on
the immediately following move; and after any other successful move the ko
restriction no longer applies to that cell — it stays empty and is legal
again exactly when placing there is not then suicide. -/
theorem ko_rule_spec (b : GoBoard) (row col : Nat)
    (hwf : WFg b.size b.board)
    (hp : b.current_player = 1 ∨ b.current_player = 2)
    (hr : row < b.size) (hc : col < b.size)
    (hok : (make_move b row col).1 = true) :
    ((remove_captured_stones b.size (setCell b.board row col b.current_player)
        (3 - b.current_player)).2 = 1 →
      ∃ q : Nat × Nat,
        getCell b.board q.1 q.2 = 3 - b.current_player ∧
        getCell (make_move b row col).2.board q.1 q.2 = 0 ∧
        (∀ q' : Nat × Nat, q'.1 < b.size → q'.2 < b.size →
          getCell b.board q'.1 q'.2 = 3 - b.current_player →
          getCell (make_move b row col).2.board q'.1 q'.2 = 0 → q' = q) ∧
        (make_move b row col).2.ko_position = some q) ∧
    ((remove_captured_stones b.size (setCell b.board row col b.current_player)
        (3 - b.current_player)).2 ≠ 1 →
      (make_move b row col).2.ko_position = none) ∧
    (∀ q, (make_move b row col).2.ko_position = some q →
      is_valid_move (make_move b row col).2 q.1 q.2 = false) ∧
    (∀ r2 c2, r2 < b.size → c2 < b.size →
      (make_move (make_move b row col).2 r2 c2).1 = true →
      ∀ q, (make_move b row col).2.ko_position = some q →
        (make_move (make_move b row col).2 r2 c2).2.ko_position ≠ some q ∧
        getCell (make_move (make_move b row col).2 r2 c2).2.board q.1 q.2 = 0 ∧
        is_valid_move (make_move (make_move b row col).2 r2 c2).2 q.1 q.2 =
          !would_be_suicide (make_move (make_move b row col).2 r2 c2).2 q.1 q.2
            (make_move (make_move b row col).2 r2 c2).2.current_player) := by
  have hv : is_valid_move b row col = true := (make_move_fst_iff b row col).1 hok
  refine ⟨make_move_single_capture_ko b row col hwf hp hr hc hv, ?_, ?_, ?_⟩
  · intro h1
    rw [make_move_ko b row col hv, if_neg h1]
  · intro q hq
    exact ko_point_illegal (make_move b row col).2 q hq
  · intro r2 c2 hr2 hc2 hok2 q hkoq
    have hv2 : is_valid_move (make_move b row col).2 r2 c2 = true :=
      (make_move_fst_iff _ r2 c2).1 hok2
    have hsz1 : (make_move b row col).2.size = b.size := make_move_size b row col hv
    have hwf1 : WFg (make_move b row col).2.size (make_move b row col).2.board := by
      rw [hsz1]
      exact make_move_wf b row col hwf hp hv
    have hp1 : (make_move b row col).2.current_player = 1 ∨
        (make_move b row col).2.current_player = 2 := by
      rw [make_move_player b row col hv]
      rcases hp with h | h <;> rw [h]
      · exact Or.inr rfl
      · exact Or.inl rfl
    -- the old ko point is the unique single-capture cell, hence empty now
    have h1 : (remove_captured_stones b.size (setCell b.board row col b.current_player)
        (3 - b.current_player)).2 = 1 := by
      by_contra hne
      rw [make_move_ko b row col hv, if_neg hne] at hkoq
      cases hkoq
    obtain ⟨qA, hA1, hA2, hA3, hA4⟩ := make_move_single_capture_ko b row col hwf hp hr hc hv h1
    have hqq : qA = q := by
      rw [hA4] at hkoq
      exact Option.some.inj hkoq
    rw [hqq] at hA2
    -- the second move cannot be at the ko point
    have hne2 : (q.1, q.2) ≠ (r2, c2) := by
      intro h
      have hx : q.1 = r2 := congrArg Prod.fst h
      have hy : q.2 = c2 := congrArg Prod.snd h
      rw [← hx, ← hy] at hv2
      rw [ko_point_illegal (make_move b row col).2 q hkoq] at hv2
      cases hv2
    have hopp1 : (3 - (make_move b row col).2.current_player) ≠ 0 := by
      rcases hp1 with h | h <;> rw [h] <;> decide
    have hwfp2 : WFg (make_move b row col).2.size
        (setCell (make_move b row col).2.board r2 c2
          (make_move b row col).2.current_player) := by
      apply WFg_setCell
      exact hwf1
    have hrem2 := remove_spec (make_move b row col).2.size
      (setCell (make_move b row col).2.board r2 c2
        (make_move b row col).2.current_player)
      (3 - (make_move b row col).2.current_player) hopp1 hwfp2
    have hplaced2 : getCell (setCell (make_move b row col).2.board r2 c2
        (make_move b row col).2.current_player) q.1 q.2 = 0 := by
      rw [getCell_setCell_ne _ r2 c2 _ q.1 q.2 hne2]
      exact hA2
    have hb2board := make_move_board (make_move b row col).2 r2 c2 hv2
    have hq2zero : getCell (make_move (make_move b row col).2 r2 c2).2.board q.1 q.2 = 0 := by
      rw [hb2board]
      rcases hrem2.1 q.1 q.2 with h | h
      · rw [h]
        exact hplaced2
      · exact h.1
    refine ⟨?_, hq2zero, ?_⟩
    · -- the new ko point, if any, is a freshly captured cell, which held a
      -- stone on the intermediate board, so it cannot be the old ko point
      rw [make_move_ko (make_move b row col).2 r2 c2 hv2]
      by_cases hcap2 : (remove_captured_stones (make_move b row col).2.size
          (setCell (make_move b row col).2.board r2 c2
            (make_move b row col).2.current_player)
          (3 - (make_move b row col).2.current_player)).2 = 1
      · rw [if_pos hcap2]
        obtain ⟨qB, hB1, hB2, hB3, hB4⟩ := make_move_single_capture_ko
          (make_move b row col).2 r2 c2 hwf1 hp1 (by rw [hsz1]; exact hr2)
          (by rw [hsz1]; exact hc2) hv2 hcap2
        rw [make_move_ko (make_move b row col).2 r2 c2 hv2, if_pos hcap2] at hB4
        rw [hB4]
        intro hcontra
        have hqB : qB = q := Option.some.inj hcontra
        rw [hqB, hA2] at hB1
        exact hopp1 hB1.symm
      · rw [if_neg hcap2]
        intro hcontra
        cases hcontra
    · -- with the cell empty and the ko restriction gone, legality is
      -- exactly the absence of suicide
      unfold is_valid_move
      rw [if_neg (by rw [hq2zero]; simp)]
      have hko2ne : ¬((make_move (make_move b row col).2 r2 c2).2.ko_position =
          some (q.1, q.2)) := by
        -- same argument as the first component
        rw [make_move_ko (make_move b row col).2 r2 c2 hv2]
        by_cases hcap2 : (remove_captured_stones (make_move b row col).2.size
            (setCell (make_move b row col).2.board r2 c2
              (make_move b row col).2.current_player)
            (3 - (make_move b row col).2.current_player)).2 = 1
        · rw [if_pos hcap2]
          obtain ⟨qB, hB1, hB2, hB3, hB4⟩ := make_move_single_capture_ko
            (make_move b row col).2 r2 c2 hwf1 hp1 (by rw [hsz1]; exact hr2)
            (by rw [hsz1]; exact hc2) hv2 hcap2
          rw [make_move_ko (make_move b row col).2 r2 c2 hv2, if_pos hcap2] at hB4
          rw [hB4]
          intro hcontra
          have hqB : qB = (q.1, q.2) := Option.some.inj hcontra
          rw [hqB, hA2] at hB1
          exact hopp1 hB1.symm
        · rw [if_neg hcap2]
          intro hcontra
          cases hcontra
      rw [if_neg hko2ne]
      cases hs : would_be_suicide (make_move (make_move b row col).2 r2 c2).2 q.1 q.2
        (make_move (make_move b row col).2 r2 c2).2.current_player
      · simp
      · simp

/-- A 5x5 position with a one-stone ko capture available to Black at
(1, 0): White (0,0), (0,2), (2,0); Black (0,1), (4,4), (4,3). -/
def koB : GoBoard :=
  (make_move (make_move (make_move (make_move (make_move (make_move
    (GoBoard.init 5) 0 1).2 0 0).2 4 4).2 0 2).2 4 3).2 2 0).2

/-- C5 witness: the amended ko rule at the concrete single-capture move
(1, 0) on `koB`. -/
theorem ko_rule_spec_witness :
    ((remove_captured_stones koB.size (setCell koB.board 1 0 koB.current_player)
        (3 - koB.current_player)).2 = 1 →
      ∃ q : Nat × Nat,
        getCell koB.board q.1 q.2 = 3 - koB.current_player ∧
        getCell (make_move koB 1 0).2.board q.1 q.2 = 0 ∧
        (∀ q' : Nat × Nat, q'.1 < koB.size → q'.2 < koB.size →
          getCell koB.board q'.1 q'.2 = 3 - koB.current_player →
          getCell (make_move koB 1 0).2.board q'.1 q'.2 = 0 → q' = q) ∧
        (make_move koB 1 0).2.ko_position = some q) ∧
    ((remove_captured_stones koB.size (setCell koB.board 1 0 koB.current_player)
        (3 - koB.current_player)).2 ≠ 1 →
      (make_move koB 1 0).2.ko_position = none) ∧
    (∀ q, (make_move koB 1 0).2.ko_position = some q →
      is_valid_move (make_move koB 1 0).2 q.1 q.2 = false) ∧
    (∀ r2 c2, r2 < koB.size → c2 < koB.size →
      (make_move (make_move koB 1 0).2 r2 c2).1 = true →
      ∀ q, (make_move koB 1 0).2.ko_position = some q →
        (make_move (make_move koB 1 0).2 r2 c2).2.ko_position ≠ some q ∧
        getCell (make_move (make_move koB 1 0).2 r2 c2).2.board q.1 q.2 = 0 ∧
        is_valid_move (make_move (make_move koB 1 0).2 r2 c2).2 q.1 q.2 =
          !would_be_suicide (make_move (make_move koB 1 0).2 r2 c2).2 q.1 q.2
            (make_move (make_move koB 1 0).2 r2 c2).2.current_player) :=
  ko_rule_spec koB 1 0 (by unfold WFg; decide) (by decide) (by decide) (by decide)
    (by decide)

/-- The position after Black's single-stone ko capture at (1, 0) on `koB`:
the ko point is (0, 0). -/
def koB7 : GoBoard := (make_move koB 1 0).2

/-- The position after White then clears the ko by playing (1, 1), which
also fills the last outside liberty of Black's corner group. -/
def koB8 : GoBoard := (make_move koB7 1 1).2

/-- C5 counterexample: Black's capture at (1, 0) takes exactly one White
stone and sets the ko point to (0, 0); White's next move at (1, 1) clears
the ko point; yet playing (0, 0) is still illegal — the cell is empty but
the placement is now suicide — refuting "legal again after any other move
has cleared the koPoint". -/
theorem ko_cleared_not_legal_cex :
    (make_move koB 1 0).1 = true ∧
    koB7.ko_position = some (0, 0) ∧
    koB7.captured_white = 1 ∧
    koB7.captured_black = 0 ∧
    (make_move koB7 1 1).1 = true ∧
    koB8.ko_position = none ∧
    getCell koB8.board 0 0 = 0 ∧
    is_valid_move koB8 0 0 = false := by
  decide

/-! ### Stone-count bookkeeping -/

theorem getCell_init (size row col : Nat) :
    getCell (GoBoard.init size).board row col = 0 := by
  rw [getCell_eq_getElem?]
  show ((List.replicate size (List.replicate size (0 : Nat)))[row]?.getD
    [])[col]?.getD 0 = 0
  rw [List.getElem?_replicate]
  by_cases hr : row < size
  · rw [if_pos hr, Option.getD_some, List.getElem?_replicate]
    by_cases hc : col < size
    · rw [if_pos hc, Option.getD_some]
    · rw [if_neg hc, Option.getD_none]
  · rw [if_neg hr, Option.getD_none]
    show (([] : List Nat)[col]?).getD 0 = 0
    rw [List.getElem?_nil, Option.getD_none]

theorem countP_update_true {α : Type} [BEq α] [LawfulBEq α] (l : List α)
    (hl : l.Nodup) (x : α) (hx : x ∈ l) (f g : α → Bool)
    (hagree : ∀ y ∈ l, y ≠ x → f y = g y)
    (hfx : f x = true) (hgx : g x = false) :
    l.countP f = l.countP g + 1 := by
  have hcongr : l.countP f = l.countP (fun a => g a || (a == x)) := by
    apply List.countP_congr
    intro y hy
    by_cases hyx : y = x
    · subst hyx
      simp [hfx, hgx]
    · rw [hagree y hy hyx]
      have : (y == x) = false := by simpa using hyx
      rw [this, Bool.or_false]
  rw [hcongr, countP_or_disjoint]
  · rw [countP_beq_of_nodup l hl x hx]
  · intro a _
    rintro ⟨h1, h2⟩
    rw [beq_iff_eq] at h2
    subst h2
    rw [h1] at hgx
    cases hgx

/-- The number of stones of colour `v` on a grid. -/
def stoneCount (size : Nat) (g : Grid) (v : Nat) : Nat :=
  (allCells size).countP (fun p => getCell g p.1 p.2 == v)

theorem stoneCount_setCell_self (size : Nat) (g : Grid) (hwf : WFg size g)
    (row col v : Nat) (hr : row < size) (hc : col < size)
    (hempty : getCell g row col = 0) (hv : v ≠ 0) :
    stoneCount size (setCell g row col v) v = stoneCount size g v + 1 := by
  apply countP_update_true _ (nodup_allCells size) (row, col)
    ((mem_allCells size (row, col)).2 ⟨hr, hc⟩)
  · intro y hy hyx
    rw [getCell_setCell_ne g row col v y.1 y.2 (by
      intro h
      exact hyx (by rw [← h]))]
  · rw [getCell_setCell_self size g hwf row col v hr hc]
    simp
  · rw [hempty]
    simp [Ne.symm hv]

theorem stoneCount_setCell_other (size : Nat) (g : Grid) (hwf : WFg size g)
    (row col v w : Nat) (hr : row < size) (hc : col < size)
    (hempty : getCell g row col = 0) (hvw : w ≠ v) (hw : w ≠ 0) :
    stoneCount size (setCell g row col v) w = stoneCount size g w := by
  apply List.countP_congr
  intro y hy
  by_cases hyx : y = (row, col)
  · have h1 : getCell (setCell g row col v) y.1 y.2 = v := by
      rw [hyx]
      exact getCell_setCell_self size g hwf row col v hr hc
    have h2 : getCell g y.1 y.2 = 0 := by rw [hyx]; exact hempty
    rw [h1, h2]
    simp [Ne.symm hvw, Ne.symm hw]
  · rw [getCell_setCell_ne g row col v y.1 y.2 (by
      intro h
      exact hyx (by rw [← h]))]

theorem stoneCount_remove_opp (size : Nat) (g : Grid) (opp : Nat)
    (hopp : opp ≠ 0) (hwf : WFg size g) :
    stoneCount size (remove_captured_stones size g opp).1 opp +
      (remove_captured_stones size g opp).2 = stoneCount size g opp := by
  have hrem := remove_spec size g opp hopp hwf
  rw [hrem.2.1]
  unfold stoneCount
  rw [← countP_or_disjoint]
  · apply (List.countP_congr _).symm
    intro q _
    unfold cellDiff
    rcases hrem.1 q.1 q.2 with h | h
    · rw [h]
      simp
    · rw [h.1, h.2]
      simp [Ne.symm hopp]
  · intro q _
    rintro ⟨h1, h2⟩
    unfold cellDiff at h2
    rw [beq_iff_eq] at h1
    rcases hrem.1 q.1 q.2 with h | h
    · rw [h] at h2
      simp at h2
    · rw [h.1] at h1
      exact hopp h1.symm

theorem stoneCount_remove_other (size : Nat) (g : Grid) (opp w : Nat)
    (hopp : opp ≠ 0) (hw : w ≠ 0) (hwopp : w ≠ opp) (hwf : WFg size g) :
    stoneCount size (remove_captured_stones size g opp).1 w = stoneCount size g w := by
  have hrem := remove_spec size g opp hopp hwf
  apply List.countP_congr
  intro q _
  rcases hrem.1 q.1 q.2 with h | h
  · rw [h]
  · rw [h.1, h.2]
    simp [Ne.symm hw, Ne.symm hwopp]

/-! ### Reachability by moves alone -/

/-- Board states reachable from a fresh board by successful in-range moves
(no undo). -/
inductive MoveReachable : GoBoard → Prop where
  | init (size : Nat) : MoveReachable (GoBoard.init size)
  | step (b : GoBoard) (row col : Nat) (hr : row < b.size) (hc : col < b.size)
      (hok : (make_move b row col).1 = true) (hprev : MoveReachable b) :
      MoveReachable (make_move b row col).2

theorem reachable_invariants (b : GoBoard) (h : MoveReachable b) :
    WFg b.size b.board ∧
    (b.current_player = 1 ∨ b.current_player = 2) ∧
    stoneCount b.size b.board 1 + stoneCount b.size b.board 2 +
      b.captured_black + b.captured_white = b.move_history.length := by
  induction h with
  | init size =>
    refine ⟨WFg_init size, Or.inl rfl, ?_⟩
    have hzero : ∀ v : Nat, v ≠ 0 → stoneCount size (GoBoard.init size).board v = 0 := by
      intro v hv
      unfold stoneCount
      rw [List.countP_eq_zero]
      intro p _
      rw [getCell_init]
      simp [Ne.symm hv]
    show stoneCount size (GoBoard.init size).board 1 +
      stoneCount size (GoBoard.init size).board 2 + 0 + 0 = ([] : List (Nat × Nat × Nat)).length
    rw [hzero 1 (by decide), hzero 2 (by decide)]
    rfl
  | step b row col hr hc hok hprev ih =>
    obtain ⟨hwf, hp, hsum⟩ := ih
    have hv : is_valid_move b row col = true := (make_move_fst_iff b row col).1 hok
    have hempty : getCell b.board row col = 0 := by
      by_contra hcell
      simp [is_valid_move, hcell] at hv
    have hsize := make_move_size b row col hv
    have hwf' : WFg (make_move b row col).2.size (make_move b row col).2.board := by
      rw [hsize]
      exact make_move_wf b row col hwf hp hv
    have hp' : (make_move b row col).2.current_player = 1 ∨
        (make_move b row col).2.current_player = 2 := by
      rw [make_move_player b row col hv]
      rcases hp with h | h <;> rw [h]
      · exact Or.inr rfl
      · exact Or.inl rfl
    refine ⟨hwf', hp', ?_⟩
    have hboard := make_move_board b row col hv
    have hhist := make_move_history b row col hv
    have hwfp : WFg b.size (setCell b.board row col b.current_player) :=
      WFg_setCell b.size b.board hwf row col b.current_player
    rcases hp with h1 | h1
    · have e1 : stoneCount b.size (setCell b.board row col b.current_player) 1 =
          stoneCount b.size b.board 1 + 1 := by
        rw [h1]
        exact stoneCount_setCell_self b.size b.board hwf row col 1 hr hc hempty
          (by decide)
      have e2 : stoneCount b.size (setCell b.board row col b.current_player) 2 =
          stoneCount b.size b.board 2 := by
        rw [h1]
        exact stoneCount_setCell_other b.size b.board hwf row col 1 2 hr hc hempty
          (by decide) (by decide)
      have e3 : stoneCount b.size (make_move b row col).2.board 1 =
          stoneCount b.size (setCell b.board row col b.current_player) 1 := by
        rw [hboard, h1]
        exact stoneCount_remove_other b.size _ 2 1 (by decide) (by decide) (by decide)
          (by rw [← h1]; exact hwfp)
      have e4 : stoneCount b.size (make_move b row col).2.board 2 +
          (remove_captured_stones b.size (setCell b.board row col b.current_player)
            (3 - b.current_player)).2 =
          stoneCount b.size (setCell b.board row col b.current_player) 2 := by
        rw [hboard, h1]
        exact stoneCount_remove_opp b.size _ 2 (by decide)
          (by rw [← h1]; exact hwfp)
      have e5 := make_move_capb b row col hv
      have e6 := make_move_capw b row col hv
      rw [if_pos h1] at e5 e6
      rw [hsize, hhist, e5, e6]
      rw [List.length_append, List.length_singleton]
      omega
    · have e1 : stoneCount b.size (setCell b.board row col b.current_player) 2 =
          stoneCount b.size b.board 2 + 1 := by
        rw [h1]
        exact stoneCount_setCell_self b.size b.board hwf row col 2 hr hc hempty
          (by decide)
      have e2 : stoneCount b.size (setCell b.board row col b.current_player) 1 =
          stoneCount b.size b.board 1 := by
        rw [h1]
        exact stoneCount_setCell_other b.size b.board hwf row col 2 1 hr hc hempty
          (by decide) (by decide)
      have e3 : stoneCount b.size (make_move b row col).2.board 2 =
          stoneCount b.size (setCell b.board row col b.current_player) 2 := by
        rw [hboard, h1]
        exact stoneCount_remove_other b.size _ 1 2 (by decide) (by decide) (by decide)
          (by rw [← h1]; exact hwfp)
      have e4 : stoneCount b.size (make_move b row col).2.board 1 +
          (remove_captured_stones b.size (setCell b.board row col b.current_player)
            (3 - b.current_player)).2 =
          stoneCount b.size (setCell b.board row col b.current_player) 1 := by
        rw [hboard, h1]
        exact stoneCount_remove_opp b.size _ 1 (by decide)
          (by rw [← h1]; exact hwfp)
      have e5 := make_move_capb b row col hv
      have e6 := make_move_capw b row col hv
      rw [if_neg (by rw [h1]; decide)] at e5 e6
      rw [hsize, hhist, e5, e6]
      rw [List.length_append, List.length_singleton]
      omega

/-- The board after two moves and two undos from a fresh 3x3 board: the
second undo restores the stale snapshot (one stone) while the history is
already empty. -/
def c6B : GoBoard :=
  (undo_move (undo_move (make_move (make_move (GoBoard.init 3) 0 0).2 1 1).2).2).2

/-- C6 counterexample: after two successful moves and two successful undos
from the fresh board, one stone remains on the board while the history is
empty and both capture counters are zero, so stones-plus-captures no longer
equals the history length. -/
theorem stone_conservation_cex :
    (make_move (GoBoard.init 3) 0 0).1 = true ∧
    (make_move (make_move (GoBoard.init 3) 0 0).2 1 1).1 = true ∧
    (undo_move (make_move (make_move (GoBoard.init 3) 0 0).2 1 1).2).1 = true ∧
    (undo_move (undo_move (make_move (make_move (GoBoard.init 3) 0 0).2 1 1).2).2).1 =
      true ∧
    ¬(stoneCount c6B.size c6B.board 1 + stoneCount c6B.size c6B.board 2 +
      c6B.captured_black + c6B.captured_white = c6B.move_history.length) := by
  decide

/-- C6 (amended): in every board state reachable from the initial empty
board by successful in-range moves alone (no undo), the number of Black
stones plus the number of White stones plus both capture counters equals
the length of the move history. -/
theorem stone_capture_history_invariant (b : GoBoard) (h : MoveReachable b) :
    stoneCount b.size b.board 1 + stoneCount b.size b.board 2 +
      b.captured_black + b.captured_white = b.move_history.length :=
  (reachable_invariants b h).2.2

/-- C6 witness: the invariant at the board reached by the single move
(0, 0) on the fresh 3x3 board. -/
theorem stone_capture_history_invariant_witness :
    stoneCount (make_move (GoBoard.init 3) 0 0).2.size
        (make_move (GoBoard.init 3) 0 0).2.board 1 +
      stoneCount (make_move (GoBoard.init 3) 0 0).2.size
        (make_move (GoBoard.init 3) 0 0).2.board 2 +
      (make_move (GoBoard.init 3) 0 0).2.captured_black +
      (make_move (GoBoard.init 3) 0 0).2.captured_white =
      (make_move (GoBoard.init 3) 0 0).2.move_history.length :=
  stone_capture_history_invariant (make_move (GoBoard.init 3) 0 0).2
    (MoveReachable.step (GoBoard.init 3) 0 0 (by decide) (by decide) (by decide)
      (MoveReachable.init 3))

/-! ### Alpha-beta pruning refines exhaustive minimax -/

theorem bot_lt_toScore (q : ℚ) : (⊥ : Score) < toScore q :=
  WithBot.bot_lt_coe _

theorem toScore_lt_top (q : ℚ) : toScore q < (⊤ : Score) := by
  have h : ((⊤ : WithTop ℚ) : Score) = (⊤ : Score) := rfl
  rw [← h]
  exact WithBot.coe_lt_coe.2 (WithTop.coe_lt_top q)

theorem ite_lt_max (x y : Score) : (if x < y then y else x) = max x y := by
  by_cases h : x < y
  · rw [if_pos h, max_eq_right h.le]
  · rw [if_neg h, max_eq_left (le_of_not_lt h)]

theorem ite_lt_min (x y : Score) : (if y < x then y else x) = min x y := by
  by_cases h : y < x
  · rw [if_pos h, min_eq_right h.le]
  · rw [if_neg h, min_eq_left (le_of_not_lt h)]

theorem plainFoldMax_ge (pnext : GoBoard → Score × Option Move) (b : GoBoard) :
    ∀ (ms : List Move) (T : Score) (bp : Option Move),
      T ≤ (plainFoldMax pnext b ms T bp).1 := by
  intro ms
  induction ms with
  | nil =>
    intro T bp
    exact le_refl T
  | cons mv rest ih =>
    intro T bp
    simp only [plainFoldMax]
    by_cases h : T < (pnext (make_move b mv.1 mv.2).2).1
    · rw [if_pos h]
      exact le_trans h.le (ih _ _)
    · rw [if_neg h]
      exact ih _ _

theorem plainFoldMin_le (pnext : GoBoard → Score × Option Move) (b : GoBoard) :
    ∀ (ms : List Move) (T : Score) (bp : Option Move),
      (plainFoldMin pnext b ms T bp).1 ≤ T := by
  intro ms
  induction ms with
  | nil =>
    intro T bp
    exact le_refl T
  | cons mv rest ih =>
    intro T bp
    simp only [plainFoldMin]
    by_cases h : (pnext (make_move b mv.1 mv.2).2).1 < T
    · rw [if_pos h]
      exact le_trans (ih _ _) h.le
    · rw [if_neg h]
      exact ih _ _

theorem abFoldMax_spec (next : GoBoard → Score → Score → Score × Option Move)
    (pnext : GoBoard → Score × Option Move) (b : GoBoard) (alp bet : Score)
    (hab : alp < bet)
    (hnext : ∀ b2 a2 b2', a2 < b2' →
      ((pnext b2).1 ≤ a2 → (next b2 a2 b2').1 ≤ a2) ∧
      (b2' ≤ (pnext b2).1 → b2' ≤ (next b2 a2 b2').1) ∧
      (a2 < (pnext b2).1 → (pnext b2).1 < b2' → (next b2 a2 b2').1 = (pnext b2).1)) :
    ∀ (ms : List Move) (al m T : Score) (best bestp : Option Move),
      al = max alp m → al < bet →
      (alp < T → m = T ∧ best = bestp) →
      (T ≤ alp → m ≤ alp) →
      ((plainFoldMax pnext b ms T bestp).1 ≤ alp →
        (abFoldMax next b bet ms al m best).1 ≤ alp) ∧
      (bet ≤ (plainFoldMax pnext b ms T bestp).1 →
        bet ≤ (abFoldMax next b bet ms al m best).1) ∧
      (alp < (plainFoldMax pnext b ms T bestp).1 →
        (plainFoldMax pnext b ms T bestp).1 < bet →
        abFoldMax next b bet ms al m best = plainFoldMax pnext b ms T bestp) := by
  intro ms
  induction ms with
  | nil =>
    intro al m T best bestp hal hwin hA hB
    simp only [abFoldMax, plainFoldMax]
    refine ⟨hB, ?_, ?_⟩
    · intro hbT
      obtain ⟨hm, _⟩ := hA (lt_of_lt_of_le hab hbT)
      rw [hm]
      exact hbT
    · intro h1 _
      obtain ⟨hm, hbest⟩ := hA h1
      rw [hm, hbest]
  | cons mv rest ih =>
    intro al m T best bestp hal hwin hA hB
    simp only [abFoldMax, plainFoldMax]
    have hmal : m ≤ al := by rw [hal]; exact le_max_right alp m
    have halal : alp ≤ al := by rw [hal]; exact le_max_left alp m
    obtain ⟨hc1, hc2, hc3⟩ := hnext (make_move b mv.1 mv.2).2 al bet hwin
    set tc := (pnext (make_move b mv.1 mv.2).2).1 with htc
    set vc := (next (make_move b mv.1 mv.2).2 al bet).1 with hvc
    by_cases hIIb : bet ≤ tc
    · -- the child's true value reaches beta: prune after this child
      have hvb : bet ≤ vc := hc2 hIIb
      have hTtc : T < tc := by
        by_cases hT : alp < T
        · obtain ⟨hm, _⟩ := hA hT
          exact lt_of_le_of_lt (hm ▸ hmal) (lt_of_lt_of_le hwin hIIb)
        · exact lt_of_le_of_lt (le_trans (le_of_not_lt hT) halal)
            (lt_of_lt_of_le hwin hIIb)
      rw [if_pos hTtc]
      have hprune : bet ≤ max al vc := le_trans hvb (le_max_right al vc)
      rw [if_pos hprune]
      have hbp : bet ≤ (plainFoldMax pnext b rest tc (some mv)).1 :=
        le_trans hIIb (plainFoldMax_ge pnext b rest tc (some mv))
      refine ⟨?_, ?_, ?_⟩
      · intro h
        exact absurd h (not_le.2 (lt_of_lt_of_le hab hbp))
      · intro _
        rw [ite_lt_max]
        exact le_trans hvb (le_max_right m vc)
      · intro _ h2
        exact absurd h2 (not_lt.2 hbp)
    · push_neg at hIIb
      by_cases hAcase : alp < T
      · obtain ⟨hmT, hbb⟩ := hA hAcase
        have halm : al = m := by
          rw [hal]
          exact max_eq_right (le_of_lt (by rw [hmT]; exact hAcase))
        by_cases hup : m < tc
        · have hvceq : vc = tc := hc3 (by rw [halm]; exact hup) hIIb
          have hTup : T < tc := by rw [← hmT]; exact hup
          rw [if_pos hTup]
          have hmvc : m < vc := by rw [hvceq]; exact hup
          have halvc : max al vc = vc :=
            max_eq_right (by rw [halm, hvceq]; exact hup.le)
          rw [if_neg (show ¬ bet ≤ max al vc from by
            rw [halvc, hvceq]; exact not_le.2 hIIb)]
          rw [if_pos hmvc, if_pos hmvc, halvc, hvceq]
          apply ih tc tc tc (some mv) (some mv)
          · exact (max_eq_right (le_of_lt (lt_trans hAcase hTup))).symm
          · exact hIIb
          · intro _
            exact ⟨rfl, rfl⟩
          · intro h
            exact absurd (lt_trans hAcase hTup) (not_lt.2 h)
        · have hTnup : ¬ T < tc := by rw [← hmT]; exact hup
          rw [if_neg hTnup]
          have hvc_le : vc ≤ al := hc1 (by rw [halm]; exact le_of_not_lt hup)
          have hmvc : ¬ m < vc := not_lt.2 (halm ▸ hvc_le)
          rw [if_neg (show ¬ bet ≤ max al vc from by
            rw [max_eq_left hvc_le]; exact not_le.2 hwin)]
          rw [if_neg hmvc, if_neg hmvc, max_eq_left hvc_le]
          exact ih al m T best bestp hal hwin hA hB
      · have hTa : T ≤ alp := le_of_not_lt hAcase
        have hmle : m ≤ alp := hB hTa
        have halp : al = alp := by rw [hal]; exact max_eq_left hmle
        by_cases htcal : tc ≤ alp
        · have hvc_le : vc ≤ al := hc1 (by rw [halp]; exact htcal)
          have hvc_alp : vc ≤ alp := halp ▸ hvc_le
          rw [if_neg (show ¬ bet ≤ max al vc from by
            rw [max_eq_left hvc_le]; exact not_le.2 hwin)]
          rw [ite_lt_max, max_eq_left hvc_le]
          have hal' : al = max alp (max m vc) := by
            rw [halp]
            exact (max_eq_left (max_le hmle hvc_alp)).symm
          by_cases hTtc : T < tc
          · rw [if_pos hTtc]
            apply ih al (max m vc) tc (if m < vc then some mv else best) (some mv)
            · exact hal'
            · exact hwin
            · intro h
              exact absurd h (not_lt.2 htcal)
            · intro _
              exact max_le hmle hvc_alp
          · rw [if_neg hTtc]
            apply ih al (max m vc) T (if m < vc then some mv else best) bestp
            · exact hal'
            · exact hwin
            · intro h
              exact absurd h (not_lt.2 hTa)
            · intro _
              exact max_le hmle hvc_alp
        · push_neg at htcal
          have hvceq : vc = tc := hc3 (by rw [halp]; exact htcal) hIIb
          have hTtc : T < tc := lt_of_le_of_lt hTa htcal
          rw [if_pos hTtc]
          have hmvc : m < vc := by
            rw [hvceq]
            exact lt_of_le_of_lt hmle htcal
          have halvc : max al vc = vc :=
            max_eq_right (by rw [halp, hvceq]; exact htcal.le)
          rw [if_neg (show ¬ bet ≤ max al vc from by
            rw [halvc, hvceq]; exact not_le.2 hIIb)]
          rw [if_pos hmvc, if_pos hmvc, halvc, hvceq]
          apply ih tc tc tc (some mv) (some mv)
          · exact (max_eq_right htcal.le).symm
          · exact hIIb
          · intro _
            exact ⟨rfl, rfl⟩
          · intro h
            exact absurd htcal (not_lt.2 h)

theorem abFoldMin_spec (next : GoBoard → Score → Score → Score × Option Move)
    (pnext : GoBoard → Score × Option Move) (b : GoBoard) (alp bet : Score)
    (hab : alp < bet)
    (hnext : ∀ b2 a2 b2', a2 < b2' →
      ((pnext b2).1 ≤ a2 → (next b2 a2 b2').1 ≤ a2) ∧
      (b2' ≤ (pnext b2).1 → b2' ≤ (next b2 a2 b2').1) ∧
      (a2 < (pnext b2).1 → (pnext b2).1 < b2' → (next b2 a2 b2').1 = (pnext b2).1)) :
    ∀ (ms : List Move) (bt m T : Score) (best bestp : Option Move),
      bt = min bet m → alp < bt →
      (T < bet → m = T ∧ best = bestp) →
      (bet ≤ T → bet ≤ m) →
      ((plainFoldMin pnext b ms T bestp).1 ≤ alp →
        (abFoldMin next b alp ms bt m best).1 ≤ alp) ∧
      (bet ≤ (plainFoldMin pnext b ms T bestp).1 →
        bet ≤ (abFoldMin next b alp ms bt m best).1) ∧
      (alp < (plainFoldMin pnext b ms T bestp).1 →
        (plainFoldMin pnext b ms T bestp).1 < bet →
        abFoldMin next b alp ms bt m best = plainFoldMin pnext b ms T bestp) := by
  intro ms
  induction ms with
  | nil =>
    intro bt m T best bestp hbt hwin hA hB
    simp only [abFoldMin, plainFoldMin]
    refine ⟨?_, hB, ?_⟩
    · intro hTa
      obtain ⟨hm, _⟩ := hA (lt_of_le_of_lt hTa hab)
      rw [hm]
      exact hTa
    · intro _ h2
      obtain ⟨hm, hbest⟩ := hA h2
      rw [hm, hbest]
  | cons mv rest ih =>
    intro bt m T best bestp hbt hwin hA hB
    simp only [abFoldMin, plainFoldMin]
    have hmbt : bt ≤ m := by rw [hbt]; exact min_le_right bet m
    have hbtbet : bt ≤ bet := by rw [hbt]; exact min_le_left bet m
    obtain ⟨hc1, hc2, hc3⟩ := hnext (make_move b mv.1 mv.2).2 alp bt hwin
    set tc := (pnext (make_move b mv.1 mv.2).2).1 with htc
    set vc := (next (make_move b mv.1 mv.2).2 alp bt).1 with hvc
    by_cases hI : tc ≤ alp
    · -- the child's true value is at or below alpha: prune after this child
      have hva : vc ≤ alp := hc1 hI
      have hTtc : tc < T := by
        by_cases hT : T < bet
        · obtain ⟨hm, _⟩ := hA hT
          exact lt_of_le_of_lt hI (lt_of_lt_of_le hwin (hm ▸ hmbt))
        · exact lt_of_le_of_lt hI
            (lt_of_lt_of_le hab (le_of_not_lt hT))
      rw [if_pos hTtc]
      have hprune : min bt vc ≤ alp := le_trans (min_le_right bt vc) hva
      rw [if_pos hprune]
      have hbp : (plainFoldMin pnext b rest tc (some mv)).1 ≤ alp :=
        le_trans (plainFoldMin_le pnext b rest tc (some mv)) hI
      refine ⟨?_, ?_, ?_⟩
      · intro _
        rw [ite_lt_min]
        exact le_trans (min_le_right m vc) hva
      · intro h
        exact absurd h (not_le.2 (lt_of_le_of_lt hbp hab))
      · intro h1 _
        exact absurd h1 (not_lt.2 hbp)
    · push_neg at hI
      by_cases hAcase : T < bet
      · obtain ⟨hmT, hbb⟩ := hA hAcase
        have hbtm : bt = m := by
          rw [hbt]
          exact min_eq_right (le_of_lt (by rw [hmT]; exact hAcase))
        by_cases hup : tc < m
        · have hvceq : vc = tc := hc3 hI (by rw [hbtm]; exact hup)
          have hTup : tc < T := by rw [← hmT]; exact hup
          rw [if_pos hTup]
          have hmvc : vc < m := by rw [hvceq]; exact hup
          have hbtvc : min bt vc = vc :=
            min_eq_right (by rw [hbtm, hvceq]; exact hup.le)
          rw [if_neg (show ¬ min bt vc ≤ alp from by
            rw [hbtvc, hvceq]; exact not_le.2 hI)]
          rw [if_pos hmvc, if_pos hmvc, hbtvc, hvceq]
          apply ih tc tc tc (some mv) (some mv)
          · exact (min_eq_right (le_of_lt (lt_trans hTup hAcase))).symm
          · exact hI
          · intro _
            exact ⟨rfl, rfl⟩
          · intro h
            exact absurd (lt_trans hTup hAcase) (not_lt.2 h)
        · have hTnup : ¬ tc < T := by rw [← hmT]; exact hup
          rw [if_neg hTnup]
          have hvc_ge : bt ≤ vc := hc2 (by rw [hbtm]; exact le_of_not_lt hup)
          have hmvc : ¬ vc < m := not_lt.2 (hbtm ▸ hvc_ge)
          rw [if_neg (show ¬ min bt vc ≤ alp from by
            rw [min_eq_left hvc_ge]; exact not_le.2 hwin)]
          rw [if_neg hmvc, if_neg hmvc, min_eq_left hvc_ge]
          exact ih bt m T best bestp hbt hwin hA hB
      · have hTb : bet ≤ T := le_of_not_lt hAcase
        have hmge : bet ≤ m := hB hTb
        have hbtbet' : bt = bet := by rw [hbt]; exact min_eq_left hmge
        by_cases hbttc : bt ≤ tc
        · have hvc_ge : bt ≤ vc := hc2 hbttc
          have hvc_bet : bet ≤ vc := hbtbet' ▸ hvc_ge
          rw [if_neg (show ¬ min bt vc ≤ alp from by
            rw [min_eq_left hvc_ge]; exact not_le.2 hwin)]
          rw [ite_lt_min, min_eq_left hvc_ge]
          have hbt' : bt = min bet (min m vc) := by
            rw [hbtbet']
            exact (min_eq_left (le_min hmge hvc_bet)).symm
          by_cases hTtc : tc < T
          · rw [if_pos hTtc]
            apply ih bt (min m vc) tc (if vc < m then some mv else best) (some mv)
            · exact hbt'
            · exact hwin
            · intro h
              exact absurd h (not_lt.2 (hbtbet' ▸ hbttc))
            · intro _
              exact le_min hmge hvc_bet
          · rw [if_neg hTtc]
            apply ih bt (min m vc) T (if vc < m then some mv else best) bestp
            · exact hbt'
            · exact hwin
            · intro h
              exact absurd h (not_lt.2 hTb)
            · intro _
              exact le_min hmge hvc_bet
        · push_neg at hbttc
          have hvceq : vc = tc := hc3 hI hbttc
          have htcbet : tc < bet := lt_of_lt_of_le hbttc hbtbet
          have hTtc : tc < T := lt_of_lt_of_le htcbet hTb
          rw [if_pos hTtc]
          have hmvc : vc < m := by
            rw [hvceq]
            exact lt_of_lt_of_le htcbet hmge
          have hbtvc : min bt vc = vc :=
            min_eq_right (by rw [hvceq]; exact hbttc.le)
          rw [if_neg (show ¬ min bt vc ≤ alp from by
            rw [hbtvc, hvceq]; exact not_le.2 hI)]
          rw [if_pos hmvc, if_pos hmvc, hbtvc, hvceq]
          apply ih tc tc tc (some mv) (some mv)
          · exact (min_eq_right htcbet.le).symm
          · exact hI
          · intro _
            exact ⟨rfl, rfl⟩
          · intro h
            exact absurd htcbet (not_lt.2 h)

theorem minimax_spec (ai : MinimaxAI) :
    ∀ (d : Nat) (b : GoBoard) (maxim : Bool) (alp bet : Score), alp < bet →
      ((minimax_plain ai d b maxim).1 ≤ alp → (minimax ai d b alp bet maxim).1 ≤ alp) ∧
      (bet ≤ (minimax_plain ai d b maxim).1 → bet ≤ (minimax ai d b alp bet maxim).1) ∧
      (alp < (minimax_plain ai d b maxim).1 → (minimax_plain ai d b maxim).1 < bet →
        minimax ai d b alp bet maxim = minimax_plain ai d b maxim) := by
  intro d
  induction d with
  | zero =>
    intro b maxim alp bet hab
    exact ⟨fun h => h, fun h => h, fun _ _ => rfl⟩
  | succ n ih =>
    intro b maxim alp bet hab
    simp only [minimax, minimax_plain]
    by_cases hempty : (get_valid_moves b).isEmpty
    · rw [if_pos hempty, if_pos hempty]
      exact ⟨fun h => h, fun h => h, fun _ _ => rfl⟩
    · rw [if_neg hempty, if_neg hempty]
      cases maxim with
      | true =>
        rw [if_pos rfl, if_pos rfl]
        apply abFoldMax_spec (fun b2 a2 b2' => minimax ai n b2 a2 b2' false)
          (fun b2 => minimax_plain ai n b2 false) b alp bet hab
        · intro b2 a2 b2' h
          obtain ⟨h1, h2, h3⟩ := ih b2 false a2 b2' h
          exact ⟨h1, h2, fun ha hb => congrArg Prod.fst (h3 ha hb)⟩
        · exact (max_eq_left bot_le).symm
        · exact hab
        · intro h
          exact absurd h not_lt_bot
        · intro _
          exact bot_le
      | false =>
        rw [if_neg (by simp), if_neg (by simp)]
        apply abFoldMin_spec (fun b2 a2 b2' => minimax ai n b2 a2 b2' true)
          (fun b2 => minimax_plain ai n b2 true) b alp bet hab
        · intro b2 a2 b2' h
          obtain ⟨h1, h2, h3⟩ := ih b2 true a2 b2' h
          exact ⟨h1, h2, fun ha hb => congrArg Prod.fst (h3 ha hb)⟩
        · exact (min_eq_left le_top).symm
        · exact hab
        · intro h
          exact absurd h (not_lt.2 le_top)
        · intro _
          exact le_top

theorem plainFoldMax_fin (pnext : GoBoard → Score × Option Move) (b : GoBoard)
    (hfin : ∀ b2, ∃ q, (pnext b2).1 = toScore q) :
    ∀ (ms : List Move) (T : Score) (bp : Option Move),
      (∃ q, T = toScore q) ∨ (T = ⊥ ∧ ms ≠ []) →
      ∃ q, (plainFoldMax pnext b ms T bp).1 = toScore q := by
  intro ms
  induction ms with
  | nil =>
    intro T bp h
    rcases h with h | h
    · exact h
    · exact absurd rfl h.2
  | cons mv rest ih =>
    intro T bp h
    simp only [plainFoldMax]
    obtain ⟨qc, hqc⟩ := hfin (make_move b mv.1 mv.2).2
    by_cases hup : T < (pnext (make_move b mv.1 mv.2).2).1
    · rw [if_pos hup]
      exact ih _ _ (Or.inl ⟨qc, hqc⟩)
    · rw [if_neg hup]
      rcases h with h | h
      · exact ih _ _ (Or.inl h)
      · exfalso
        apply hup
        rw [h.1, hqc]
        exact bot_lt_toScore qc

theorem plainFoldMin_fin (pnext : GoBoard → Score × Option Move) (b : GoBoard)
    (hfin : ∀ b2, ∃ q, (pnext b2).1 = toScore q) :
    ∀ (ms : List Move) (T : Score) (bp : Option Move),
      (∃ q, T = toScore q) ∨ (T = ⊤ ∧ ms ≠ []) →
      ∃ q, (plainFoldMin pnext b ms T bp).1 = toScore q := by
  intro ms
  induction ms with
  | nil =>
    intro T bp h
    rcases h with h | h
    · exact h
    · exact absurd rfl h.2
  | cons mv rest ih =>
    intro T bp h
    simp only [plainFoldMin]
    obtain ⟨qc, hqc⟩ := hfin (make_move b mv.1 mv.2).2
    by_cases hup : (pnext (make_move b mv.1 mv.2).2).1 < T
    · rw [if_pos hup]
      exact ih _ _ (Or.inl ⟨qc, hqc⟩)
    · rw [if_neg hup]
      rcases h with h | h
      · exact ih _ _ (Or.inl h)
      · exfalso
        apply hup
        rw [h.1, hqc]
        exact toScore_lt_top qc

theorem minimax_plain_fin (ai : MinimaxAI) :
    ∀ (d : Nat) (b : GoBoard) (maxim : Bool),
      ∃ q, (minimax_plain ai d b maxim).1 = toScore q := by
  intro d
  induction d with
  | zero =>
    intro b maxim
    exact ⟨evaluate_board ai b, rfl⟩
  | succ n ih =>
    intro b maxim
    simp only [minimax_plain]
    by_cases hempty : (get_valid_moves b).isEmpty
    · rw [if_pos hempty]
      exact ⟨evaluate_board ai b, rfl⟩
    · rw [if_neg hempty]
      have hne : get_valid_moves b ≠ [] := by
        intro h
        rw [h] at hempty
        exact hempty rfl
      cases maxim with
      | true =>
        rw [if_pos rfl]
        exact plainFoldMax_fin _ b (fun b2 => ih b2 false) _ ⊥ none
          (Or.inr ⟨rfl, hne⟩)
      | false =>
        rw [if_neg (by simp)]
        exact plainFoldMin_fin _ b (fun b2 => ih b2 true) _ ⊤ none
          (Or.inr ⟨rfl, hne⟩)

/-- C1: on any position and at any depth, the alpha-beta search called with
the full `(-inf, inf)` window returns exactly the same (score, move) pair
as exhaustive minimax without pruning, for both root modes, under the same
first-move-reaching-the-best-value-wins tie-breaking. -/
theorem alphabeta_eq_minimax (ai : MinimaxAI) (d : Nat) (b : GoBoard) (maxim : Bool) :
    minimax ai d b ⊥ ⊤ maxim = minimax_plain ai d b maxim := by
  obtain ⟨q, hq⟩ := minimax_plain_fin ai d b maxim
  exact (minimax_spec ai d b maxim ⊥ ⊤ bot_lt_top).2.2
    (by rw [hq]; exact bot_lt_toScore q)
    (by rw [hq]; exact toScore_lt_top q)

end GoVerify
